import Mathlib

/-!
Verification of the bibtex-tidy specification.

The repository ships only `rollup.config.js` (build configuration, including
the `docsResolve` plugin that derives CLI flag names) and one test file
(`test/duplicate-citations.spec.js`).  The core pipeline
(parse → normalize → deduplicate → sort → format) is therefore modelled from
the specification document, faithfully following its words; the build-time
CLI-flag derivation is embedded directly from `rollup.config.js`.

Strings are modelled as `List Char`; the public entry point wraps `String`.
All definitions are structural (fuel-based where the source loops), so every
concrete run can be evaluated by the kernel.
-/

/-- ASCII whitespace recognised by the tolerant grammar. -/
def wsChar (c : Char) : Bool := c = ' ' || c = '\n' || c = '\t' || c = '\r'

/-- The left-brace character (written via its code point). -/
def lbc : Char := Char.ofNat 123

/-- The right-brace character (written via its code point). -/
def rbc : Char := Char.ofNat 125

/-- ASCII uppercase letter test, as the regex `[A-Z]` used in the build script. -/
def upperA (c : Char) : Bool := decide (65 ≤ c.toNat) && decide (c.toNat ≤ 90)

/-- ASCII lowercasing of one character. -/
def lowerChar (c : Char) : Char := if upperA c then Char.ofNat (c.toNat + 32) else c

/-- ASCII lowercasing of a character list. -/
def lowerAll (cs : List Char) : List Char := cs.map lowerChar

/-- ASCII letter test. -/
def alphaChar (c : Char) : Bool :=
  (decide (65 ≤ c.toNat) && decide (c.toNat ≤ 90)) ||
  (decide (97 ≤ c.toNat) && decide (c.toNat ≤ 122))

/-- ASCII letter-or-digit test. -/
def alnumChar (c : Char) : Bool :=
  alphaChar c || (decide (48 ≤ c.toNat) && decide (c.toNat ≤ 57))

/-- Characters allowed in a field name. -/
def nameChar (c : Char) : Bool := alnumChar c || c = '-' || c = '_'

/-- Characters allowed in a citation key. -/
def keyChar (c : Char) : Bool :=
  !(wsChar c) && !(c = ',') && !(c = lbc) && !(c = rbc) && !(c = '@') && !(c = '"')

/-- Modelled from the spec: whitespace collapsing (runs of whitespace/newlines
become a single space; leading/trailing trimmed).  `p` records whether a
whitespace run is pending. -/
def collapseAux : Bool → List Char → List Char
  | _, [] => []
  | p, c :: cs =>
    if wsChar c then collapseAux true cs
    else if p then ' ' :: c :: collapseAux false cs
    else c :: collapseAux false cs

/-- Modelled from the spec: the whitespace-collapsing field normalization rule. -/
def collapseWs (v : List Char) : List Char := collapseAux false (v.dropWhile wsChar)

/-- Brace balance check with a depth counter: never closes below the starting
depth `d` and ends back at depth 0. -/
def balancedAux : Nat → List Char → Bool
  | d, [] => decide (d = 0)
  | d, c :: cs =>
    if c = lbc then balancedAux (d + 1) cs
    else if c = rbc then decide (d ≠ 0) && balancedAux (d - 1) cs
    else balancedAux d cs

/-- Modelled from the spec: consume a brace-delimited value tracking nesting
depth (the parser must not assume balanced-at-first-close).  Returns the value
and the remaining input, or `none` when the brace is unterminated. -/
def takeBalanced : Nat → List Char → Option (List Char × List Char)
  | _, [] => none
  | d, c :: cs =>
    if c = lbc then (takeBalanced (d + 1) cs).map (fun p => (c :: p.1, p.2))
    else if c = rbc then
      if d = 0 then some ([], cs)
      else (takeBalanced (d - 1) cs).map (fun p => (c :: p.1, p.2))
    else (takeBalanced d cs).map (fun p => (c :: p.1, p.2))

/-- Modelled from the spec: consume a quote-delimited value; braces inside the
quotes are tracked with the same depth counter. -/
def takeQuoted : Nat → List Char → Option (List Char × List Char)
  | _, [] => none
  | d, c :: cs =>
    if c = lbc then (takeQuoted (d + 1) cs).map (fun p => (c :: p.1, p.2))
    else if c = rbc then
      if d = 0 then none
      else (takeQuoted (d - 1) cs).map (fun p => (c :: p.1, p.2))
    else if c = '"' then
      if d = 0 then some ([], cs)
      else (takeQuoted d cs).map (fun p => (c :: p.1, p.2))
    else (takeQuoted d cs).map (fun p => (c :: p.1, p.2))

/-- One field of a bibliography entry: canonical-lowercase name and raw value. -/
structure BField where
  fname : List Char
  fval : List Char
deriving DecidableEq

/-- One bibliography entry: type name, citation key, ordered field list. -/
structure BEntry where
  etype : List Char
  ekey : List Char
  fields : List BField
deriving DecidableEq

/-- A top-level item of the parsed document: an entry, free text outside
entries, or a raw `@comment`/`@preamble`/`@string` directive. -/
inductive BItem where
  | entry (e : BEntry)
  | comment (text : List Char)
  | directive (dtype : List Char) (body : List Char)
deriving DecidableEq

/-- Structured warnings reported alongside the output. -/
inductive BWarning where
  | parseRecovered (skipped : List Char)
  | duplicateFieldName (key fname : List Char)
  | duplicateEntries (indices : List Nat)
deriving DecidableEq

/-- The directive names recognised after `@`. -/
def dirNames : List (List Char) := [("comment").data, ("preamble").data, ("string").data]

/-- Modelled from the spec: parse the field list of an entry, starting right
after the citation key.  Accepts `}`-termination and trailing commas; field
values may be brace-wrapped, quote-wrapped, or bare alphanumeric words.  Fuel
counts field iterations. -/
def parseFieldsF : Nat → List Char → Option (List BField × List Char)
  | 0, _ => none
  | f + 1, cs =>
    match cs.dropWhile wsChar with
    | [] => none
    | c :: rest =>
      if c = rbc then some ([], rest)
      else if c = ',' then
        match rest.dropWhile wsChar with
        | [] => none
        | c2 :: rest2 =>
          if c2 = rbc then some ([], rest2)
          else
            if (c2 :: rest2).takeWhile nameChar = [] then none
            else
              match ((c2 :: rest2).dropWhile nameChar).dropWhile wsChar with
              | '=' :: r3 =>
                match r3.dropWhile wsChar with
                | [] => none
                | c4 :: r5 =>
                  if c4 = lbc then
                    match takeBalanced 0 r5 with
                    | some (v, r6) =>
                      (parseFieldsF f r6).map
                        (fun p => (⟨lowerAll ((c2 :: rest2).takeWhile nameChar), v⟩ :: p.1, p.2))
                    | none => none
                  else if c4 = '"' then
                    match takeQuoted 0 r5 with
                    | some (v, r6) =>
                      (parseFieldsF f r6).map
                        (fun p => (⟨lowerAll ((c2 :: rest2).takeWhile nameChar), v⟩ :: p.1, p.2))
                    | none => none
                  else
                    if (c4 :: r5).takeWhile alnumChar = [] then none
                    else
                      (parseFieldsF f ((c4 :: r5).dropWhile alnumChar)).map
                        (fun p => (⟨lowerAll ((c2 :: rest2).takeWhile nameChar),
                          (c4 :: r5).takeWhile alnumChar⟩ :: p.1, p.2))
              | _ => none
      else none

/-- Modelled from the spec: parse one `@`-item (the `@` already consumed):
a directive when the type word is `comment`/`preamble`/`string`, otherwise an
entry `@type{key, name = value, ...}`.  Returns `none` on any malformed shape,
which the caller turns into recovery. -/
def parseAtItem (cs : List Char) : Option (BItem × List Char) :=
  if cs.takeWhile alphaChar = [] then none
  else
    match (cs.dropWhile alphaChar).dropWhile wsChar with
    | [] => none
    | c :: r2 =>
      if c = lbc then
        if lowerAll (cs.takeWhile alphaChar) ∈ dirNames then
          match takeBalanced 0 r2 with
          | some (b, r3) => some (.directive (lowerAll (cs.takeWhile alphaChar)) b, r3)
          | none => none
        else
          match parseFieldsF (((r2.dropWhile wsChar).dropWhile keyChar).length + 1)
              ((r2.dropWhile wsChar).dropWhile keyChar) with
          | some (fs, r5) =>
            some (.entry ⟨lowerAll (cs.takeWhile alphaChar),
              (r2.dropWhile wsChar).takeWhile keyChar, fs⟩, r5)
          | none => none
      else none

/-- The comment item produced by text found before the next `@`: kept
verbatim when it contains a non-whitespace character, skipped otherwise. -/
def preComment (pre : List Char) : List BItem :=
  if pre.any (fun c => !(wsChar c)) then [.comment pre] else []

/-- Modelled from the spec: the tolerant top-level parser.  Text before the
next `@` that contains a non-whitespace character is kept verbatim as a
comment item; a malformed `@`-item is skipped up to the next `@` with a
recovery warning.  Fuel counts `@`-item iterations. -/
def parseItemsF : Nat → List Char → List BItem × List BWarning
  | 0, _ => ([], [])
  | f + 1, cs =>
    match cs.dropWhile (fun c => !(c = '@')) with
    | [] => (preComment (cs.takeWhile (fun c => !(c = '@'))), [])
    | _ :: afterAt =>
      match parseAtItem afterAt with
      | some (it, rest) =>
        (preComment (cs.takeWhile (fun c => !(c = '@'))) ++ it :: (parseItemsF f rest).1,
         (parseItemsF f rest).2)
      | none =>
        (preComment (cs.takeWhile (fun c => !(c = '@'))) ++
           (parseItemsF f (afterAt.dropWhile (fun c => !(c = '@')))).1,
         .parseRecovered (afterAt.takeWhile (fun c => !(c = '@'))) ::
           (parseItemsF f (afterAt.dropWhile (fun c => !(c = '@')))).2)

/-- Modelled from the spec: parse a whole document (fuel `length + 1` always
suffices because every iteration consumes at least the `@` character). -/
def parseBib (cs : List Char) : List BItem × List BWarning := parseItemsF (cs.length + 1) cs

/-- Serialize one field as `  name = {value},` followed by a newline. -/
def serField (ind : Nat) (fl : BField) : List Char :=
  List.replicate ind ' ' ++ fl.fname ++ ' ' :: '=' :: ' ' :: lbc :: fl.fval ++ [rbc, ',', '\n']

/-- Serialize a field list. -/
def serFields (ind : Nat) : List BField → List Char
  | [] => []
  | fl :: fs => serField ind fl ++ serFields ind fs

/-- The text of a serialized entry after its `@`. -/
def entryBody (ind : Nat) (e : BEntry) : List Char :=
  e.etype ++ lbc :: e.ekey ++ ',' :: '\n' :: serFields ind e.fields ++ [rbc]

/-- The text of a serialized directive after its `@`. -/
def directiveBody (d b : List Char) : List Char := d ++ lbc :: b ++ [rbc]

/-- Modelled from the spec: the canonical serializer (curly enclosure,
one field per line, trailing commas, configurable indent). -/
def serItem (ind : Nat) : BItem → List Char
  | .comment c => c
  | .directive d b => '@' :: directiveBody d b
  | .entry e => '@' :: entryBody ind e

/-- Serialize a document. -/
def serItems (ind : Nat) : List BItem → List Char
  | [] => []
  | it :: its => serItem ind it ++ serItems ind its

/-- The configurable sort keys: a field name or the special keys `key`/`type`. -/
inductive SortKey where
  | byKey
  | byType
  | byField (fname : List Char)
deriving DecidableEq

/-- The duplicate-match strategies: by citation key, DOI, abstract,
author+title fuzzy match, or a user-specified field. -/
inductive DupStrategy where
  | dkey
  | ddoi
  | dcitation
  | dabstract
  | dfield (fname : List Char)
deriving DecidableEq

/-- Modelled from the spec: the immutable configuration threaded through every
stage. -/
structure TidyOptions where
  sortSpec : Option (List SortKey)
  duplicates : List DupStrategy
  merge : Bool
  generateKeys : Bool
  stripFields : List (List Char)
  stripComments : Bool
  collapseWhitespace : Bool
  indent : Nat
deriving DecidableEq

/-- The default configuration. -/
def defaultOptions : TidyOptions :=
  ⟨none, [], false, false, [], false, true, 2⟩

/-- The configured sort keys (empty when sorting is off). -/
def sortKeysOf (opts : TidyOptions) : List SortKey :=
  match opts.sortSpec with
  | none => []
  | some ks => ks

/-- Look up a field value by (lowercase) name: first match. -/
def findField (fs : List BField) (n : List Char) : Option (List Char) :=
  (fs.find? (fun fl => fl.fname = n)).map (fun fl => fl.fval)

/-- Modelled from the spec: duplicate field names within one record are
resolved last-write-wins; this keeps, for each name, only its last occurrence. -/
def dedupFieldsLast : List BField → List BField
  | [] => []
  | fl :: fs =>
    if fs.any (fun g => g.fname = fl.fname) then dedupFieldsLast fs
    else fl :: dedupFieldsLast fs

/-- The field occurrences dropped by last-write-wins (for warnings). -/
def droppedFields : List BField → List BField
  | [] => []
  | fl :: fs =>
    if fs.any (fun g => g.fname = fl.fname) then fl :: droppedFields fs
    else droppedFields fs

/-- Modelled from the spec: per-value normalization (whitespace collapsing,
when enabled). -/
def normValue (opts : TidyOptions) (v : List Char) : List Char :=
  if opts.collapseWhitespace then collapseWs v else v

/-- Modelled from the spec: normalize one entry — resolve duplicate field
names last-write-wins (with a warning), drop explicitly stripped fields, and
normalize each remaining value. -/
def normalizeEntry (opts : TidyOptions) (e : BEntry) : BEntry × List BWarning :=
  let kept := (dedupFieldsLast e.fields).filter (fun fl => !(decide (fl.fname ∈ opts.stripFields)))
  (⟨e.etype, e.ekey, kept.map (fun fl => ⟨fl.fname, normValue opts fl.fval⟩)⟩,
   (droppedFields e.fields).map (fun fl => .duplicateFieldName e.ekey fl.fname))

/-- Normalize one item (comments and directives pass through). -/
def normalizeItem (opts : TidyOptions) : BItem → BItem × List BWarning
  | .entry e => ((fun p => (BItem.entry p.1, p.2)) (normalizeEntry opts e))
  | it => (it, [])

/-- Normalize a document. -/
def normalizeItems (opts : TidyOptions) : List BItem → List BItem × List BWarning
  | [] => ([], [])
  | it :: its =>
    let p := normalizeItem opts it
    let q := normalizeItems opts its
    (p.1 :: q.1, p.2 ++ q.2)

/-- The entries of a document, in order. -/
def entriesOf : List BItem → List BEntry
  | [] => []
  | .entry e :: its => e :: entriesOf its
  | _ :: its => entriesOf its

/-- Put a transformed entry sequence back into the entry slots of a document,
leaving comments and directives in place. -/
def replaceEntries : List BItem → List BEntry → List BItem
  | [], _ => []
  | .entry _ :: its, e :: es => .entry e :: replaceEntries its es
  | .entry e0 :: its, [] => .entry e0 :: replaceEntries its []
  | it :: its, es => it :: replaceEntries its es

/-- Lowercase alphanumeric-only normalization used by fuzzy comparison keys. -/
def alnumLower (v : List Char) : List Char := lowerAll (v.filter alnumChar)

/-- Modelled from the spec: split an (already lowercased) author list on the
literal separator `and` surrounded by spaces. -/
def splitAndAux : List Char → List (List Char)
  | [] => [[]]
  | ' ' :: 'a' :: 'n' :: 'd' :: ' ' :: rest => [] :: splitAndAux rest
  | c :: cs => ((splitAndAux cs).headD []).cons c :: (splitAndAux cs).tail

/-- Modelled from the spec: the surname of one author segment — the part
before the comma in `Last, First` form, otherwise the last word. -/
def surnameOf (seg : List Char) : List Char :=
  if seg.any (fun c => c = ',') then seg.takeWhile (fun c => !(c = ','))
  else ((collapseWs seg).reverse.takeWhile (fun c => !(wsChar c))).reverse

/-- Three-way lexicographic comparison of character lists by code point. -/
def cmpChars : List Char → List Char → Ordering
  | [], [] => .eq
  | [], _ :: _ => .lt
  | _ :: _, [] => .gt
  | a :: as, b :: bs =>
    if a.toNat < b.toNat then .lt
    else if b.toNat < a.toNat then .gt
    else cmpChars as bs

/-- Boolean order on character lists derived from `cmpChars`. -/
def charsLeB (a b : List Char) : Bool :=
  match cmpChars a b with
  | .gt => false
  | _ => true

/-- Stable ordered insert (ties keep the earlier element first). -/
def insOrd (le : α → α → Bool) (a : α) : List α → List α
  | [] => [a]
  | b :: l => if le a b then a :: b :: l else b :: insOrd le a l

/-- Stable insertion sort. -/
def insSort (le : α → α → Bool) : List α → List α
  | [] => []
  | a :: l => insOrd le a (insSort le l)

/-- Concatenate a list of character lists. -/
def joinAll : List (List Char) → List Char
  | [] => []
  | x :: xs => x ++ joinAll xs

/-- Modelled from the spec: the `citation` comparison key — lowercase
author-surnames-sorted plus lowercase alphanumeric-only title; entries lacking
author or title have no key. -/
def citationOf (e : BEntry) : Option (List Char) :=
  match findField e.fields (("author").data), findField e.fields (("title").data) with
  | some a, some t =>
    let surnames := (splitAndAux (lowerAll a)).map (fun s => alnumLower (surnameOf s))
    some (joinAll (insSort charsLeB surnames) ++ '|' :: alnumLower t)
  | _, _ => none

/-- Modelled from the spec: the normalized comparison key of one entry under
one match strategy. -/
def stratKeyOf (s : DupStrategy) (e : BEntry) : Option (List Char) :=
  match s with
  | .dkey => some e.ekey
  | .ddoi => findField e.fields (("doi").data)
  | .dabstract => (findField e.fields (("abstract").data)).map alnumLower
  | .dcitation => citationOf e
  | .dfield n => findField e.fields n

/-- Modelled from the spec: bucket entry indices by their comparison key under
one strategy; buckets with at least two members are candidate groups. -/
def bucketsFor (es : List BEntry) (s : DupStrategy) : List (List Nat) :=
  let ks := es.map (stratKeyOf s)
  (((ks.filterMap id).dedup).map
    (fun k => (List.range es.length).filter (fun i => ks.getD i none = some k))).filter
    (fun b => decide (2 ≤ b.length))

/-- Whether a group shares an entry index with a bucket. -/
def groupTouches (g b : List Nat) : Bool := g.any (fun i => decide (i ∈ b))

/-- Modelled from the spec: union a candidate bucket into the accumulated
groups — all groups sharing any entry with the bucket are transitively merged
into one. -/
def addBucket (groups : List (List Nat)) (b : List Nat) : List (List Nat) :=
  (((groups.filter (fun g => groupTouches g b)).flatten ++ b).dedup) ::
    groups.filter (fun g => !(groupTouches g b))

/-- Fold all candidate buckets into disjoint groups. -/
def mergeGroups (acc : List (List Nat)) : List (List Nat) → List (List Nat)
  | [] => acc
  | b :: bs => mergeGroups (addBucket acc b) bs

/-- Modelled from the spec: the duplicate detector — bucket per enabled
strategy, then transitively union groups that share entries.  Returns groups
of entry indices; it never touches the entries themselves. -/
def detectDuplicates (strats : List DupStrategy) (es : List BEntry) : List (List Nat) :=
  mergeGroups [] ((strats.map (bucketsFor es)).flatten)

/-- The placeholder entry used for out-of-range index lookups. -/
def emptyBEntry : BEntry := ⟨[], [], []⟩

/-- Append the fields of a discarded duplicate that are absent in the kept
entry. -/
def addAbsent (base extra : List BField) : List BField :=
  base ++ extra.filter (fun fl => decide (findField base fl.fname = none))

/-- Natural-number order for sorting index groups. -/
def natLeB (a b : Nat) : Bool := decide (a ≤ b)

/-- Modelled from the spec: merge a duplicate group into its first-seen
member — fields present in discarded entries but absent in the kept one are
merged in. -/
def mergedEntry (es : List BEntry) (g : List Nat) (i : Nat) : BEntry :=
  let others := (insSort natLeB g).filter (fun j => !(decide (j = i)))
  let base := es.getD i emptyBEntry
  ⟨base.etype, base.ekey,
   others.foldl (fun acc j => addAbsent acc (es.getD j emptyBEntry).fields) base.fields⟩

/-- What merge does with the entry at index `i`: kept unchanged when in no
group, merged when it is the first-seen member of its group, dropped
otherwise. -/
def mergeDecision (groups : List (List Nat)) (es : List BEntry) (i : Nat) : Option BEntry :=
  match groups.find? (fun g => decide (i ∈ g)) with
  | none => some (es.getD i emptyBEntry)
  | some g => if g.all (fun j => decide (i ≤ j)) then some (mergedEntry es g i) else none

/-- Apply merge decisions across the document, walking entries with their
index. -/
def applyMergeAux (groups : List (List Nat)) (es : List BEntry) :
    List BItem → Nat → List BItem
  | [], _ => []
  | .entry _ :: its, i =>
    (match mergeDecision groups es i with
     | some e' => [BItem.entry e']
     | none => []) ++ applyMergeAux groups es its (i + 1)
  | it :: its, i => it :: applyMergeAux groups es its i

/-- Modelled from the spec: the duplicate stage — detect groups, report one
warning per group, and collapse groups only when merging is enabled. -/
def dedupeItems (opts : TidyOptions) (items : List BItem) : List BItem × List BWarning :=
  let es := entriesOf items
  let groups := detectDuplicates opts.duplicates es
  ((if opts.merge then applyMergeAux groups es items 0 else items),
   groups.map (fun g => .duplicateEntries g))

/-- The value an entry contributes for one sort key (`none` when the field is
missing). -/
def sortValueOf (k : SortKey) (e : BEntry) : Option (List Char) :=
  match k with
  | .byKey => some e.ekey
  | .byType => some e.etype
  | .byField n => findField e.fields n

/-- Modelled from the spec: compare optional sort values — entries missing the
field sort after all entries that have it; two missing values tie. -/
def optCmp : Option (List Char) → Option (List Char) → Ordering
  | some a, some b => cmpChars a b
  | some _, none => .lt
  | none, some _ => .gt
  | none, none => .eq

/-- Lexicographic comparison of entries over the configured sort keys. -/
def entryCmp : List SortKey → BEntry → BEntry → Ordering
  | [], _, _ => .eq
  | k :: ks, a, b =>
    match optCmp (sortValueOf k a) (sortValueOf k b) with
    | .eq => entryCmp ks a b
    | o => o

/-- The boolean order used by the stable entry sort. -/
def entryLeB (ks : List SortKey) (a b : BEntry) : Bool :=
  match entryCmp ks a b with
  | .gt => false
  | _ => true

/-- Modelled from the spec: the sorter — stable sort of the entries per the
configured comparator, leaving comments and directives in place. -/
def sortItems (opts : TidyOptions) (items : List BItem) : List BItem :=
  match opts.sortSpec with
  | none => items
  | some ks => replaceEntries items (insSort (entryLeB ks) (entriesOf items))

/-- Modelled from the spec: the regenerated base key — first author surname,
year, first title word. -/
def baseKeyOf (e : BEntry) : List Char :=
  (match findField e.fields (("author").data) with
   | some v => alnumLower (surnameOf ((splitAndAux (lowerAll v)).headD []))
   | none => []) ++
  (match findField e.fields (("year").data) with
   | some v => v.filter alnumChar
   | none => []) ++
  (match findField e.fields (("title").data) with
   | some v => alnumLower ((collapseWs v).takeWhile (fun c => !(wsChar c)))
   | none => [])

/-- The disambiguating suffix for the `n`-th entry (0-based collision count):
empty, then `a`, `b`, ..., `z`, then doubled letters, and so on. -/
def suffixFor (n : Nat) : List Char :=
  if n = 0 then []
  else List.replicate ((n - 1) / 26 + 1) (Char.ofNat (97 + (n - 1) % 26))

/-- Modelled from the spec: assign regenerated keys in current sort position
order, appending a disambiguating suffix on collision with an already-assigned
base key. -/
def genKeysAux : List (List Char) → List BEntry → List BEntry
  | _, [] => []
  | seen, e :: es =>
    let b := baseKeyOf e
    ⟨e.etype, b ++ suffixFor (seen.count b), e.fields⟩ :: genKeysAux (b :: seen) es

/-- The key-regeneration stage. -/
def genKeysItems (opts : TidyOptions) (items : List BItem) : List BItem :=
  if opts.generateKeys then replaceEntries items (genKeysAux [] (entriesOf items))
  else items

/-- Whether an item is a comment. -/
def isCommentItem : BItem → Bool
  | .comment _ => true
  | _ => false

/-- The comment-stripping stage. -/
def stripCommentsItems (opts : TidyOptions) (items : List BItem) : List BItem :=
  if opts.stripComments then items.filter (fun it => !(isCommentItem it)) else items

/-- Modelled from the spec: the whole post-parse pipeline —
normalize → deduplicate → sort → regenerate keys. -/
def processItems (opts : TidyOptions) (items : List BItem) : List BItem × List BWarning :=
  let p := normalizeItems opts (stripCommentsItems opts items)
  let q := dedupeItems opts p.1
  (genKeysItems opts (sortItems opts q.1), p.2 ++ q.2)

/-- Modelled from the spec: one tidy run over raw characters — parse, process,
serialize; warnings from all stages are concatenated. -/
def tidyChars (opts : TidyOptions) (cs : List Char) : List Char × List BWarning :=
  let p := parseBib cs
  let q := processItems opts p.1
  (serItems opts.indent q.1, p.2 ++ q.2)

/-- The structured result of a successful run. -/
structure TidyResult where
  bibtex : String
  warnings : List BWarning
deriving DecidableEq

/-- The fatal error taxonomy: only unrecoverable parse conditions. -/
inductive TidyError where
  | notText
deriving DecidableEq

/-- Modelled from the spec: the public entry point.  A non-text input (here
`none`) is the unrecoverable parse condition and fails with no output; every
text input produces a result. -/
def tidy (input : Option String) (opts : TidyOptions) : Except TidyError TidyResult :=
  match input with
  | none => .error .notText
  | some s => .ok ⟨String.mk (tidyChars opts s.data).1, (tidyChars opts s.data).2⟩

/-- The output text of a run on a text input. -/
def tidyStr (s : String) (opts : TidyOptions) : String :=
  String.mk (tidyChars opts s.data).1

theorem charToNat_ofNat (n : Nat) (h : n < 55296) : (Char.ofNat n).toNat = n := by
  have hv : Nat.isValidChar n := Or.inl h
  simp only [Char.ofNat, hv, dite_true, Char.ofNatAux, Char.toNat, UInt32.toNat,
    BitVec.toNat_ofNatLt]

theorem upperA_iff (c : Char) : upperA c = true ↔ 65 ≤ c.toNat ∧ c.toNat ≤ 90 := by
  simp [upperA]

theorem lowerChar_toNat_of_upper (c : Char) (h : upperA c = true) :
    (lowerChar c).toNat = c.toNat + 32 := by
  have hb := (upperA_iff c).1 h
  simp only [lowerChar, h, if_true]
  exact charToNat_ofNat _ (by omega)

theorem lowerChar_of_not_upper (c : Char) (h : upperA c = false) : lowerChar c = c := by
  simp [lowerChar, h]

theorem lowerChar_idem (c : Char) : lowerChar (lowerChar c) = lowerChar c := by
  by_cases h : upperA c = true
  · have ht := lowerChar_toNat_of_upper c h
    have hb := (upperA_iff c).1 h
    have hnu : upperA (lowerChar c) = false := by
      rw [Bool.eq_false_iff]
      intro hu
      have := (upperA_iff _).1 hu
      omega
    exact lowerChar_of_not_upper _ hnu
  · have hf : upperA c = false := by
      rw [Bool.eq_false_iff]
      exact h
    rw [lowerChar_of_not_upper c hf, lowerChar_of_not_upper c hf]

theorem lowerAll_idem (cs : List Char) : lowerAll (lowerAll cs) = lowerAll cs := by
  simp only [lowerAll, List.map_map, Function.comp]
  exact List.map_congr_left (fun c _ => lowerChar_idem c)

theorem alphaChar_iff (c : Char) :
    alphaChar c = true ↔ (65 ≤ c.toNat ∧ c.toNat ≤ 90) ∨ (97 ≤ c.toNat ∧ c.toNat ≤ 122) := by
  simp [alphaChar]

theorem alnumChar_iff (c : Char) :
    alnumChar c = true ↔ (65 ≤ c.toNat ∧ c.toNat ≤ 90) ∨ (97 ≤ c.toNat ∧ c.toNat ≤ 122) ∨
      (48 ≤ c.toNat ∧ c.toNat ≤ 57) := by
  simp [alnumChar, alphaChar]
  tauto

theorem wsChar_cases (c : Char) (h : wsChar c = true) :
    c = ' ' ∨ c = '\n' ∨ c = '\t' ∨ c = '\r' := by
  simp only [wsChar, Bool.or_eq_true, decide_eq_true_eq] at h
  tauto

theorem alnumChar_not_ws (c : Char) (h : alnumChar c = true) : wsChar c = false := by
  rw [Bool.eq_false_iff]
  intro hw
  rcases wsChar_cases c hw with h1 | h1 | h1 | h1 <;> subst h1 <;> simp [alnumChar, alphaChar] at h

theorem nameChar_not_ws (c : Char) (h : nameChar c = true) : wsChar c = false := by
  rw [Bool.eq_false_iff]
  intro hw
  rcases wsChar_cases c hw with h1 | h1 | h1 | h1 <;> subst h1 <;> simp [nameChar, alnumChar, alphaChar] at h

theorem alphaChar_not_ws (c : Char) (h : alphaChar c = true) : wsChar c = false := by
  rw [Bool.eq_false_iff]
  intro hw
  rcases wsChar_cases c hw with h1 | h1 | h1 | h1 <;> subst h1 <;> simp [alphaChar] at h

theorem alnumChar_keyChar (c : Char) (h : alnumChar c = true) : keyChar c = true := by
  have hw := alnumChar_not_ws c h
  have h44 : ¬ c = ',' := by intro he; subst he; simp [alnumChar, alphaChar] at h
  have h123 : ¬ c = lbc := by intro he; subst he; simp [alnumChar, alphaChar, lbc] at h
  have h125 : ¬ c = rbc := by intro he; subst he; simp [alnumChar, alphaChar, rbc] at h
  have h64 : ¬ c = '@' := by intro he; subst he; simp [alnumChar, alphaChar] at h
  have h34 : ¬ c = '"' := by intro he; subst he; simp [alnumChar, alphaChar] at h
  simp [keyChar, hw, h44, h123, h125, h64, h34]

theorem alphaChar_lowerChar (c : Char) (h : alphaChar c = true) :
    alphaChar (lowerChar c) = true := by
  by_cases hu : upperA c = true
  · have ht := lowerChar_toNat_of_upper c hu
    have hb := (upperA_iff c).1 hu
    rw [alphaChar_iff, ht]
    omega
  · simpa [lowerChar, hu] using h

theorem nameChar_lowerChar (c : Char) (h : nameChar c = true) :
    nameChar (lowerChar c) = true := by
  by_cases hu : upperA c = true
  · have ht := lowerChar_toNat_of_upper c hu
    have hb := (upperA_iff c).1 hu
    have : alnumChar (lowerChar c) = true := by
      rw [alnumChar_iff, ht]
      omega
    simp [nameChar, this]
  · simpa [lowerChar, hu] using h

theorem alnumChar_lowerChar (c : Char) (h : alnumChar c = true) :
    alnumChar (lowerChar c) = true := by
  by_cases hu : upperA c = true
  · have ht := lowerChar_toNat_of_upper c hu
    have hb := (upperA_iff c).1 hu
    rw [alnumChar_iff, ht]
    omega
  · simpa [lowerChar, hu] using h

theorem takeWhileAppend (p : Char → Bool) (xs ys : List Char) (h : ∀ c ∈ xs, p c = true) :
    (xs ++ ys).takeWhile p = xs ++ ys.takeWhile p := by
  induction xs with
  | nil => simp
  | cons c cs ih =>
    have hc := h c (by simp)
    simp only [List.cons_append, List.takeWhile_cons, hc, if_true]
    rw [ih (fun x hx => h x (by simp [hx]))]

theorem dropWhileAppend (p : Char → Bool) (xs ys : List Char) (h : ∀ c ∈ xs, p c = true) :
    (xs ++ ys).dropWhile p = ys.dropWhile p := by
  induction xs with
  | nil => simp
  | cons c cs ih =>
    have hc := h c (by simp)
    simp only [List.cons_append, List.dropWhile_cons, hc, if_true]
    exact ih (fun x hx => h x (by simp [hx]))

theorem takeWhileStop (p : Char → Bool) (c : Char) (cs : List Char) (h : p c = false) :
    (c :: cs).takeWhile p = [] := by
  simp [List.takeWhile_cons, h]

theorem dropWhileStop (p : Char → Bool) (c : Char) (cs : List Char) (h : p c = false) :
    (c :: cs).dropWhile p = c :: cs := by
  simp [List.dropWhile_cons, h]

theorem dropWhileHead (p : Char → Bool) (v : List Char) :
    v.dropWhile p = [] ∨ ∃ c cs, v.dropWhile p = c :: cs ∧ p c = false := by
  induction v with
  | nil => exact Or.inl rfl
  | cons c cs ih =>
    by_cases h : p c = true
    · simpa [List.dropWhile_cons, h] using ih
    · right
      exact ⟨c, cs, by simp [List.dropWhile_cons, h], by simpa using h⟩

theorem lbc_ne_rbc : ¬ lbc = rbc := by decide

theorem rbc_ne_lbc : ¬ rbc = lbc := by decide

theorem takeBalanced_closes (v : List Char) :
    ∀ d r, balancedAux d v = true → takeBalanced d (v ++ rbc :: r) = some (v, r) := by
  induction v with
  | nil =>
    intro d r h
    simp only [balancedAux, decide_eq_true_eq] at h
    subst h
    simp [takeBalanced, rbc_ne_lbc]
  | cons c cs ih =>
    intro d r h
    by_cases h1 : c = lbc
    · subst h1
      simp only [balancedAux, if_true] at h
      simp [takeBalanced, ih (d + 1) r h]
    · by_cases h2 : c = rbc
      · subst h2
        simp only [balancedAux, rbc_ne_lbc, if_false, if_true, Bool.and_eq_true,
          decide_eq_true_eq] at h
        obtain ⟨hd, hb⟩ := h
        simp [takeBalanced, rbc_ne_lbc, hd, ih (d - 1) r hb]
      · simp only [balancedAux, h1, h2, if_false] at h
        simp [takeBalanced, h1, h2, ih d r h]

theorem takeBalanced_isBalanced (cs : List Char) :
    ∀ d v r, takeBalanced d cs = some (v, r) → balancedAux d v = true := by
  induction cs with
  | nil => intro d v r h; simp [takeBalanced] at h
  | cons c cs ih =>
    intro d v r h
    by_cases h1 : c = lbc
    · subst h1
      simp only [takeBalanced, if_true] at h
      match hrec : takeBalanced (d + 1) cs with
      | none => rw [hrec] at h; simp at h
      | some (v', r') =>
        rw [hrec] at h
        simp only [Option.map_some', Option.some_inj, Prod.mk.injEq] at h
        obtain ⟨hv, hr⟩ := h
        subst hv
        simp [balancedAux, ih _ _ _ hrec]
    · by_cases h2 : c = rbc
      · subst h2
        simp only [takeBalanced, rbc_ne_lbc, if_false, if_true] at h
        by_cases hd : d = 0
        · subst hd
          simp only [if_true, Option.some_inj, Prod.mk.injEq] at h
          obtain ⟨hv, hr⟩ := h
          subst hv
          simp [balancedAux]
        · simp only [hd, if_false] at h
          match hrec : takeBalanced (d - 1) cs with
          | none => rw [hrec] at h; simp at h
          | some (v', r') =>
            rw [hrec] at h
            simp only [Option.map_some', Option.some_inj, Prod.mk.injEq] at h
            obtain ⟨hv, hr⟩ := h
            subst hv
            simp [balancedAux, rbc_ne_lbc, hd, ih _ _ _ hrec]
      · simp only [takeBalanced, h1, h2, if_false] at h
        match hrec : takeBalanced d cs with
        | none => rw [hrec] at h; simp at h
        | some (v', r') =>
          rw [hrec] at h
          simp only [Option.map_some', Option.some_inj, Prod.mk.injEq] at h
          obtain ⟨hv, hr⟩ := h
          subst hv
          simp [balancedAux, h1, h2, ih _ _ _ hrec]

theorem takeQuoted_isBalanced (cs : List Char) :
    ∀ d v r, takeQuoted d cs = some (v, r) → balancedAux d v = true := by
  induction cs with
  | nil => intro d v r h; simp [takeQuoted] at h
  | cons c cs ih =>
    intro d v r h
    by_cases h1 : c = lbc
    · subst h1
      simp only [takeQuoted, if_true] at h
      match hrec : takeQuoted (d + 1) cs with
      | none => rw [hrec] at h; simp at h
      | some (v', r') =>
        rw [hrec] at h
        simp only [Option.map_some', Option.some_inj, Prod.mk.injEq] at h
        obtain ⟨hv, hr⟩ := h
        subst hv
        simp [balancedAux, ih _ _ _ hrec]
    · by_cases h2 : c = rbc
      · subst h2
        simp only [takeQuoted, rbc_ne_lbc, if_false, if_true] at h
        by_cases hd : d = 0
        · simp [hd] at h
        · simp only [hd, if_false] at h
          match hrec : takeQuoted (d - 1) cs with
          | none => rw [hrec] at h; simp at h
          | some (v', r') =>
            rw [hrec] at h
            simp only [Option.map_some', Option.some_inj, Prod.mk.injEq] at h
            obtain ⟨hv, hr⟩ := h
            subst hv
            simp [balancedAux, rbc_ne_lbc, hd, ih _ _ _ hrec]
      · by_cases h3 : c = '"'
        · subst h3
          simp only [takeQuoted, h1, h2, if_false, if_true] at h
          by_cases hd : d = 0
          · subst hd
            simp only [if_true, Option.some_inj, Prod.mk.injEq] at h
            obtain ⟨hv, hr⟩ := h
            subst hv
            simp [balancedAux]
          · simp only [hd, if_false] at h
            match hrec : takeQuoted d cs with
            | none => rw [hrec] at h; simp at h
            | some (v', r') =>
              rw [hrec] at h
              simp only [Option.map_some', Option.some_inj, Prod.mk.injEq] at h
              obtain ⟨hv, hr⟩ := h
              subst hv
              simp [balancedAux, h1, h2, ih _ _ _ hrec]
        · simp only [takeQuoted, h1, h2, h3, if_false] at h
          match hrec : takeQuoted d cs with
          | none => rw [hrec] at h; simp at h
          | some (v', r') =>
            rw [hrec] at h
            simp only [Option.map_some', Option.some_inj, Prod.mk.injEq] at h
            obtain ⟨hv, hr⟩ := h
            subst hv
            simp [balancedAux, h1, h2, ih _ _ _ hrec]

/-- A character is a brace. -/
def braceChar (c : Char) : Bool := c = lbc || c = rbc

theorem balancedAux_of_no_brace (v : List Char) :
    ∀ d, (∀ c ∈ v, braceChar c = false) → balancedAux d v = decide (d = 0) := by
  induction v with
  | nil => intro d _; rfl
  | cons c cs ih =>
    intro d h
    have hc := h c (by simp)
    simp only [braceChar, Bool.or_eq_false_iff, decide_eq_false_iff_not] at hc
    simp only [balancedAux, hc.1, hc.2, if_false]
    exact ih d (fun x hx => h x (by simp [hx]))

theorem alnumChar_not_brace (c : Char) (h : alnumChar c = true) : braceChar c = false := by
  rw [Bool.eq_false_iff]
  intro hb
  simp only [braceChar, Bool.or_eq_true, decide_eq_true_eq] at hb
  rcases hb with hb | hb <;> subst hb <;> simp [alnumChar, alphaChar, lbc, rbc] at h

theorem wsChar_not_brace (c : Char) (h : wsChar c = true) : braceChar c = false := by
  rw [Bool.eq_false_iff]
  intro hb
  simp only [braceChar, Bool.or_eq_true, decide_eq_true_eq] at hb
  rcases hb with hb | hb <;> subst hb <;> simp [wsChar, lbc, rbc] at h

theorem balancedAux_eq_filter (v : List Char) :
    ∀ d, balancedAux d v = balancedAux d (v.filter braceChar) := by
  induction v with
  | nil => intro d; rfl
  | cons c cs ih =>
    intro d
    by_cases h1 : c = lbc
    · subst h1
      have : braceChar lbc = true := by simp [braceChar]
      simp [balancedAux, List.filter_cons, this, ih]
    · by_cases h2 : c = rbc
      · subst h2
        have : braceChar rbc = true := by simp [braceChar]
        simp [balancedAux, List.filter_cons, this, rbc_ne_lbc, ih]
      · have : braceChar c = false := by simp [braceChar, h1, h2]
        simp [balancedAux, List.filter_cons, this, h1, h2, ih]

theorem filter_dropWhile_disjoint (p q : Char → Bool) (v : List Char)
    (h : ∀ c, p c = true → q c = false) :
    (v.dropWhile p).filter q = v.filter q := by
  induction v with
  | nil => rfl
  | cons c cs ih =>
    by_cases hc : p c = true
    · simp [List.dropWhile_cons, hc, ih, List.filter_cons, h c hc]
    · simp [List.dropWhile_cons, hc]

theorem collapseAux_filter_brace (v : List Char) :
    ∀ p, (collapseAux p v).filter braceChar = v.filter braceChar := by
  induction v with
  | nil => intro p; rfl
  | cons c cs ih =>
    intro p
    by_cases hw : wsChar c = true
    · simp [collapseAux, hw, ih, List.filter_cons, wsChar_not_brace c hw]
    · have hsp : braceChar ' ' = false := by decide
      by_cases hp : p = true
      · subst hp
        simp [collapseAux, hw, List.filter_cons, hsp, ih]
      · have : p = false := by simpa using hp
        subst this
        simp [collapseAux, hw, List.filter_cons, ih]

theorem collapseWs_balanced (v : List Char) (d : Nat) :
    balancedAux d (collapseWs v) = balancedAux d v := by
  rw [balancedAux_eq_filter, balancedAux_eq_filter v]
  congr 1
  rw [collapseWs, collapseAux_filter_brace]
  exact filter_dropWhile_disjoint wsChar braceChar v wsChar_not_brace

theorem collapseAux_collapseAux (cs : List Char) :
    collapseAux false (collapseAux false cs) = collapseAux false cs ∧
    collapseAux false (collapseAux true cs) = collapseAux true cs := by
  induction cs with
  | nil => exact ⟨rfl, rfl⟩
  | cons c cs ih =>
    by_cases hw : wsChar c = true
    · simp only [collapseAux, hw, if_true]
      exact ⟨ih.2, ih.2⟩
    · have hws : wsChar ' ' = true := by decide
      constructor
      · simp only [collapseAux, hw, Bool.false_eq_true, if_false, ih.1]
      · simp only [collapseAux, hw, Bool.false_eq_true, if_false, if_true, hws, ih.1]

theorem lengthDropWhileLe (p : Char → Bool) (l : List Char) :
    (l.dropWhile p).length ≤ l.length := by
  induction l with
  | nil => simp
  | cons c cs ih =>
    by_cases hc : p c = true
    · simp only [List.dropWhile_cons, hc, if_true]
      exact Nat.le_trans ih (by simp)
    · simp [List.dropWhile_cons, hc]

theorem dropWhile_collapseAux_false (cs : List Char) (h : cs.dropWhile wsChar = cs) :
    (collapseAux false cs).dropWhile wsChar = collapseAux false cs := by
  cases cs with
  | nil => rfl
  | cons c cs =>
    by_cases hw : wsChar c = true
    · rw [List.dropWhile_cons, hw] at h
      simp only [if_true] at h
      exact absurd h (by
        intro he
        have h1 := congrArg List.length he
        simp only [List.length_cons] at h1
        have h2 := lengthDropWhileLe wsChar cs
        omega)
    · simp only [collapseAux, hw, Bool.false_eq_true, if_false, List.dropWhile_cons, hw]

theorem dropWhile_idem (p : Char → Bool) (v : List Char) :
    (v.dropWhile p).dropWhile p = v.dropWhile p := by
  rcases dropWhileHead p v with h | ⟨c, cs, h, hc⟩
  · simp [h]
  · simp [h, List.dropWhile_cons, hc]

theorem collapseWs_idem (v : List Char) : collapseWs (collapseWs v) = collapseWs v := by
  rw [collapseWs, collapseWs]
  rw [dropWhile_collapseAux_false (v.dropWhile wsChar) (dropWhile_idem wsChar v)]
  exact (collapseAux_collapseAux (v.dropWhile wsChar)).1

/-- A well-formed field value: brace-balanced (as every parsed value is). -/
def valueOk (v : List Char) : Bool := balancedAux 0 v

/-- A well-formed field name: nonempty, name characters, already lowercase. -/
def nameOk (n : List Char) : Bool :=
  decide (¬ n = []) && n.all nameChar && decide (lowerAll n = n)

/-- A well-formed field. -/
def fieldOk (fl : BField) : Bool := nameOk fl.fname && valueOk fl.fval

/-- A well-formed entry: lowercase alphabetic type that is not a directive
name, key characters only, well-formed fields. -/
def entryOk (e : BEntry) : Bool :=
  decide (¬ e.etype = []) && e.etype.all alphaChar && decide (lowerAll e.etype = e.etype) &&
  decide (¬ e.etype ∈ dirNames) && e.ekey.all keyChar && e.fields.all fieldOk

/-- A well-formed item (comments hold a non-whitespace character and no `@`). -/
def itemOk : BItem → Bool
  | .entry e => entryOk e
  | .comment c => c.any (fun x => !(wsChar x)) && c.all (fun x => !(x = '@'))
  | .directive d b => decide (d ∈ dirNames) && valueOk b

/-- No two comment items are adjacent (the parser never produces two in a
row, and the serializer relies on this). -/
def noAdjComments : List BItem → Bool
  | [] => true
  | [_] => true
  | a :: b :: its => !(isCommentItem a && isCommentItem b) && noAdjComments (b :: its)

/-- The document well-formedness invariant maintained by every stage. -/
def itemsOk (items : List BItem) : Bool := items.all itemOk && noAdjComments items

theorem wsComma : wsChar ',' = false := by decide

theorem wsNewline : wsChar '\n' = true := by decide

theorem wsSpace : wsChar ' ' = true := by decide

theorem commaNeRbc : ¬ (',' : Char) = rbc := by decide

theorem nameChar_ne_rbc (c : Char) (h : nameChar c = true) : ¬ c = rbc := by
  intro he
  subst he
  exact absurd h (by decide)

theorem nameCharSpace : nameChar ' ' = false := by decide

theorem nameOk_parts (n : List Char) (h : nameOk n = true) :
    ¬ n = [] ∧ (∀ c ∈ n, nameChar c = true) ∧ lowerAll n = n := by
  simp only [nameOk, Bool.and_eq_true, decide_eq_true_eq, List.all_eq_true] at h
  tauto


theorem wsRbc : wsChar rbc = false := by decide

theorem serFields_parse (ind : Nat) (fs : List BField) :
    ∀ f rest, fs.all fieldOk = true → fs.length < f →
      parseFieldsF f (',' :: '\n' :: (serFields ind fs ++ rbc :: rest)) = some (fs, rest) := by
  induction fs with
  | nil =>
    intro f rest _ hf
    match f, hf with
    | g + 1, _ =>
      simp only [serFields, List.nil_append, parseFieldsF]
      rw [dropWhileStop wsChar ',' _ wsComma]
      simp [commaNeRbc, wsNewline, wsRbc]
  | cons fl fs ih =>
    intro f rest hok hf
    match f, hf with
    | g + 1, hf =>
      have hall : fs.all fieldOk = true := by
        simp only [List.all_cons, Bool.and_eq_true] at hok
        exact hok.2
      have hfl : fieldOk fl = true := by
        simp only [List.all_cons, Bool.and_eq_true] at hok
        exact hok.1
      have hnm : nameOk fl.fname = true := by
        simp only [fieldOk, Bool.and_eq_true] at hfl
        exact hfl.1
      have hv : valueOk fl.fval = true := by
        simp only [fieldOk, Bool.and_eq_true] at hfl
        exact hfl.2
      obtain ⟨hne, hnc, hlo⟩ := nameOk_parts fl.fname hnm
      have hser : serFields ind (fl :: fs) ++ rbc :: rest =
          List.replicate ind ' ' ++ (fl.fname ++ ' ' :: '=' :: ' ' :: lbc ::
            (fl.fval ++ rbc :: ',' :: '\n' :: (serFields ind fs ++ rbc :: rest))) := by
        simp [serFields, serField]
      rw [parseFieldsF]
      rw [dropWhileStop wsChar ',' _ wsComma]
      simp only [commaNeRbc, if_false, if_true, List.dropWhile_cons, wsNewline, if_true]
      rw [hser]
      rw [dropWhileAppend wsChar _ _ (fun c hc => by
        have he := List.eq_of_mem_replicate hc
        subst he
        exact wsSpace)]
      match hn : fl.fname, hne with
      | n0 :: ntail, _ =>
        have hn0 : nameChar n0 = true := hnc n0 (by rw [hn]; simp)
        have hntail : ∀ c ∈ ntail, nameChar c = true := fun c hc => hnc c (by rw [hn]; simp [hc])
        rw [List.cons_append, dropWhileStop wsChar n0 _ (nameChar_not_ws n0 hn0)]
        have hnall : ∀ c ∈ n0 :: ntail, nameChar c = true := by
          intro c hc
          rcases List.mem_cons.1 hc with h | h
          · subst h; exact hn0
          · exact hntail c h
        have htw : List.takeWhile nameChar (n0 :: (ntail ++ (' ' :: '=' :: ' ' :: lbc ::
            (fl.fval ++ rbc :: ',' :: '\n' :: (serFields ind fs ++ rbc :: rest))))) =
            n0 :: ntail := by
          rw [← List.cons_append]
          rw [takeWhileAppend nameChar _ _ hnall]
          rw [takeWhileStop nameChar ' ' _ nameCharSpace, List.append_nil]
        have hdwn : List.dropWhile nameChar (ntail ++ (' ' :: '=' :: ' ' :: lbc ::
            (fl.fval ++ rbc :: ',' :: '\n' :: (serFields ind fs ++ rbc :: rest)))) =
            ' ' :: '=' :: ' ' :: lbc ::
            (fl.fval ++ rbc :: ',' :: '\n' :: (serFields ind fs ++ rbc :: rest)) := by
          rw [dropWhileAppend nameChar _ _ hntail]
          exact dropWhileStop nameChar ' ' _ nameCharSpace
        have hbal : takeBalanced 0 (fl.fval ++ rbc :: (',' :: '\n' ::
            (serFields ind fs ++ rbc :: rest))) =
            some (fl.fval, ',' :: '\n' :: (serFields ind fs ++ rbc :: rest)) :=
          takeBalanced_closes fl.fval 0 _ hv
        have hih := ih g rest hall (by
          simp only [List.length_cons] at hf
          omega)
        simp only [nameChar_ne_rbc n0 hn0, if_false, htw, List.cons_ne_nil, hn0, if_true,
          hdwn, List.dropWhile_cons, wsSpace, if_true,
          (by decide : wsChar '=' = false), Bool.false_eq_true, if_false,
          (by decide : wsChar lbc = false), List.append_assoc, List.cons_append,
          List.nil_append, hbal, hih, Option.map_some', Option.some_inj]
        have hlo2 : lowerAll (n0 :: ntail) = n0 :: ntail := by
          rw [← hn]
          exact hlo
        rw [hlo2, ← hn]

theorem keyChar_not_ws (c : Char) (h : keyChar c = true) : wsChar c = false := by
  simp only [keyChar, Bool.and_eq_true, Bool.not_eq_true'] at h
  exact h.1.1.1.1.1

theorem keyCharComma : keyChar ',' = false := by decide

theorem alphaLbc : alphaChar lbc = false := by decide

theorem wsLbc : wsChar lbc = false := by decide

theorem serFields_length (ind : Nat) (fs : List BField) :
    fs.length ≤ (serFields ind fs).length := by
  induction fs with
  | nil => simp [serFields]
  | cons fl fs ih =>
    simp only [serFields, serField, List.length_cons, List.length_append]
    omega

theorem entryOk_parts (e : BEntry) (h : entryOk e = true) :
    ¬ e.etype = [] ∧ (∀ c ∈ e.etype, alphaChar c = true) ∧ lowerAll e.etype = e.etype ∧
    ¬ e.etype ∈ dirNames ∧ (∀ c ∈ e.ekey, keyChar c = true) ∧ e.fields.all fieldOk = true := by
  simp only [entryOk, Bool.and_eq_true, decide_eq_true_eq, List.all_eq_true] at h
  simp only [List.all_eq_true]
  tauto

theorem parseAtItem_entry (ind : Nat) (e : BEntry) (tail : List Char)
    (h : entryOk e = true) :
    parseAtItem (entryBody ind e ++ tail) = some (.entry e, tail) := by
  obtain ⟨hne, hal, hlo, hdir, hkey, hfs⟩ := entryOk_parts e h
  have hshape : entryBody ind e ++ tail =
      e.etype ++ lbc :: (e.ekey ++ ',' :: '\n' :: (serFields ind e.fields ++ rbc :: tail)) := by
    simp [entryBody]
  rw [hshape]
  simp only [parseAtItem]
  rw [takeWhileAppend alphaChar _ _ hal, takeWhileStop alphaChar lbc _ alphaLbc,
    List.append_nil]
  rw [if_neg hne]
  rw [dropWhileAppend alphaChar _ _ hal, dropWhileStop alphaChar lbc _ alphaLbc,
    dropWhileStop wsChar lbc _ wsLbc]
  have hdw : List.dropWhile wsChar
      (e.ekey ++ ',' :: '\n' :: (serFields ind e.fields ++ rbc :: tail)) =
      e.ekey ++ ',' :: '\n' :: (serFields ind e.fields ++ rbc :: tail) := by
    match he : e.ekey with
    | [] => exact dropWhileStop wsChar ',' _ wsComma
    | k0 :: ks =>
      have hk0 : keyChar k0 = true := hkey k0 (by rw [he]; simp)
      exact dropWhileStop wsChar k0 _ (keyChar_not_ws k0 hk0)
  have hfuel : e.fields.length <
      (',' :: '\n' :: (serFields ind e.fields ++ rbc :: tail)).length + 1 := by
    have := serFields_length ind e.fields
    simp only [List.length_cons, List.length_append]
    omega
  simp only [hlo, hdir, if_true, if_false, hdw,
    dropWhileAppend keyChar _ _ hkey, dropWhileStop keyChar ',' _ keyCharComma,
    takeWhileAppend keyChar _ _ hkey, takeWhileStop keyChar ',' _ keyCharComma,
    List.append_nil]
  rw [serFields_parse ind e.fields _ tail hfs (by
    have := serFields_length ind e.fields
    simp only [List.length_cons, List.length_append]
    omega)]

theorem dirNames_parts (d : List Char) (h : d ∈ dirNames) :
    (∀ c ∈ d, alphaChar c = true) ∧ ¬ d = [] ∧ lowerAll d = d := by
  simp only [dirNames, List.mem_cons, List.not_mem_nil, or_false] at h
  rcases h with h | h | h <;> subst h <;> exact ⟨by decide, by decide, by decide⟩

theorem parseAtItem_directive (d b tail : List Char)
    (h : itemOk (.directive d b) = true) :
    parseAtItem (directiveBody d b ++ tail) = some (.directive d b, tail) := by
  have hd : d ∈ dirNames ∧ valueOk b = true := by
    simpa only [itemOk, Bool.and_eq_true, decide_eq_true_eq] using h
  obtain ⟨hal, hne, hlo⟩ := dirNames_parts d hd.1
  have hshape : directiveBody d b ++ tail = d ++ lbc :: (b ++ rbc :: tail) := by
    simp [directiveBody]
  rw [hshape]
  simp only [parseAtItem]
  rw [takeWhileAppend alphaChar _ _ hal, takeWhileStop alphaChar lbc _ alphaLbc,
    List.append_nil]
  simp only [hne, if_false]
  rw [dropWhileAppend alphaChar _ _ hal, dropWhileStop alphaChar lbc _ alphaLbc,
    dropWhileStop wsChar lbc _ wsLbc]
  simp only [if_true, hlo, hd.1, if_true]
  rw [takeBalanced_closes b 0 tail hd.2]

theorem takeWhileAll (p : Char → Bool) (c : List Char) (h : ∀ x ∈ c, p x = true) :
    c.takeWhile p = c := by
  have := takeWhileAppend p c [] h
  simpa using this

theorem dropWhileAll (p : Char → Bool) (c : List Char) (h : ∀ x ∈ c, p x = true) :
    c.dropWhile p = [] := by
  have := dropWhileAppend p c [] h
  simpa using this

theorem notAtFalse : (!(('@' : Char) = '@') : Bool) = false := by decide

/-- The serialized text of an item after its leading `@` (comments have none). -/
def bodyOf (ind : Nat) : BItem → List Char
  | .entry e => entryBody ind e
  | .comment _ => []
  | .directive d b => directiveBody d b

theorem serItem_eq_at (ind : Nat) (it : BItem) (h : isCommentItem it = false) :
    serItem ind it = '@' :: bodyOf ind it := by
  cases it with
  | entry e => rfl
  | comment c => simp [isCommentItem] at h
  | directive d b => rfl

theorem parseAtItem_body (ind : Nat) (it : BItem) (rest : List Char)
    (h : isCommentItem it = false) (hok : itemOk it = true) :
    parseAtItem (bodyOf ind it ++ rest) = some (it, rest) := by
  cases it with
  | entry e => exact parseAtItem_entry ind e rest hok
  | comment c => simp [isCommentItem] at h
  | directive d b => exact parseAtItem_directive d b rest hok

theorem itemsOk_cons (it : BItem) (its : List BItem) (h : itemsOk (it :: its) = true) :
    itemOk it = true ∧ itemsOk its = true ∧
      (∀ b bs, its = b :: bs → isCommentItem it = true → isCommentItem b = false) := by
  simp only [itemsOk, List.all_cons, Bool.and_eq_true] at h
  obtain ⟨⟨h1, h2⟩, h3⟩ := h
  cases its with
  | nil =>
    refine ⟨h1, ?_, ?_⟩
    · simp [itemsOk, noAdjComments]
    · intro b bs hb
      exact absurd hb (by simp)
  | cons b bs =>
    simp only [noAdjComments, Bool.and_eq_true, Bool.not_eq_true',
      Bool.and_eq_false_iff] at h3
    refine ⟨h1, ?_, ?_⟩
    · simp only [itemsOk, Bool.and_eq_true]
      exact ⟨h2, h3.2⟩
    · intro b' bs' hb hcom
      have hb' : b' = b := by
        injection hb with hb1 hb2
        exact hb1.symm
      subst hb'
      rcases h3.1 with hx | hx
      · rw [hcom] at hx
        exact absurd hx (by simp)
      · exact hx

theorem serItems_parse (ind : Nat) :
    ∀ f d, itemsOk d = true → d.length < f → parseItemsF f (serItems ind d) = (d, []) := by
  intro f
  induction f with
  | zero =>
    intro d _ hlen
    exact absurd hlen (by omega)
  | succ f ih =>
    intro d hok hlen
    rcases d with _ | ⟨it, d'⟩
    · simp [serItems, parseItemsF, preComment]
    · obtain ⟨hit, hok', hadj⟩ := itemsOk_cons it d' hok
      by_cases hc : isCommentItem it = true
      · match it, hc with
        | .comment c, _ =>
          have hcf : c.any (fun x => !(wsChar x)) = true ∧
              (∀ x ∈ c, (!(x = '@') : Bool) = true) := by
            simpa only [itemOk, Bool.and_eq_true, List.all_eq_true] using hit
          rcases d' with _ | ⟨it', d''⟩
          · rw [show serItems ind [BItem.comment c] = c ++ [] by simp [serItems, serItem]]
            rw [List.append_nil, parseItemsF]
            rw [takeWhileAll _ c hcf.2, dropWhileAll _ c hcf.2]
            simp [preComment, hcf.1]
          · have hnc' : isCommentItem it' = false := hadj it' d'' rfl rfl
            obtain ⟨hit', hok'', _⟩ := itemsOk_cons it' d'' hok'
            have hser : serItems ind (BItem.comment c :: it' :: d'') =
                c ++ '@' :: (bodyOf ind it' ++ serItems ind d'') := by
              show serItem ind (BItem.comment c) ++
                  (serItem ind it' ++ serItems ind d'') =
                  c ++ '@' :: (bodyOf ind it' ++ serItems ind d'')
              rw [serItem_eq_at ind it' hnc']
              simp [serItem]
            have hih := ih d'' hok'' (by
              simp only [List.length_cons] at hlen
              omega)
            rw [hser, parseItemsF]
            rw [takeWhileAppend _ c _ hcf.2, takeWhileStop _ '@' _ notAtFalse,
              List.append_nil]
            rw [dropWhileAppend _ c _ hcf.2, dropWhileStop _ '@' _ notAtFalse]
            simp only [parseAtItem_body ind it' (serItems ind d'') hnc' hit', hih]
            simp [preComment, hcf.1]
      · have hnc : isCommentItem it = false := by simpa using hc
        have hser : serItems ind (it :: d') =
            '@' :: (bodyOf ind it ++ serItems ind d') := by
          show serItem ind it ++ serItems ind d' = '@' :: (bodyOf ind it ++ serItems ind d')
          rw [serItem_eq_at ind it hnc]
          simp
        have hih := ih d' hok' (by
          simp only [List.length_cons] at hlen
          omega)
        rw [hser, parseItemsF]
        rw [takeWhileStop _ '@' _ notAtFalse, dropWhileStop _ '@' _ notAtFalse]
        simp only [parseAtItem_body ind it (serItems ind d') hnc hit, hih]
        simp [preComment]

theorem takeWhileMem (p : Char → Bool) (l : List Char) :
    ∀ x ∈ l.takeWhile p, p x = true := by
  induction l with
  | nil => simp
  | cons c cs ih =>
    by_cases hc : p c = true
    · simp only [List.takeWhile_cons, hc, if_true, List.mem_cons]
      rintro x (h | h)
      · subst h; exact hc
      · exact ih x h
    · simp [List.takeWhile_cons, hc]

theorem lowerAll_ne_nil (w : List Char) (h : ¬ w = []) : ¬ lowerAll w = [] := by
  cases w with
  | nil => exact absurd rfl h
  | cons c cs => simp [lowerAll]

theorem nameOk_lowerAll_takeWhile (cs : List Char)
    (h : ¬ cs.takeWhile nameChar = []) :
    nameOk (lowerAll (cs.takeWhile nameChar)) = true := by
  simp only [nameOk, Bool.and_eq_true, decide_eq_true_eq, List.all_eq_true]
  refine ⟨⟨lowerAll_ne_nil _ h, ?_⟩, lowerAll_idem _⟩
  intro x hx
  simp only [lowerAll, List.mem_map] at hx
  obtain ⟨y, hy, hxy⟩ := hx
  subst hxy
  exact nameChar_lowerChar y (takeWhileMem nameChar _ y hy)

theorem parseFieldsF_wf (f : Nat) :
    ∀ cs fs r, parseFieldsF f cs = some (fs, r) → fs.all fieldOk = true := by
  induction f with
  | zero => intro cs fs r h; simp [parseFieldsF] at h
  | succ f ih =>
    intro cs fs r h
    rw [parseFieldsF] at h
    repeat' split at h
    any_goals exact Option.noConfusion h
    all_goals try
      (simp only [Option.some_inj, Prod.mk.injEq] at h
       obtain ⟨hfs, hr⟩ := h
       subst hfs
       rfl)
    all_goals rw [Option.map_eq_some'] at h
    all_goals obtain ⟨⟨fs', r'⟩, hrec, heq⟩ := h
    all_goals simp only [Prod.mk.injEq] at heq
    all_goals obtain ⟨hfs, hr⟩ := heq
    all_goals subst hfs
    all_goals simp only [List.all_cons, Bool.and_eq_true, fieldOk]
    · refine ⟨⟨nameOk_lowerAll_takeWhile _ (by assumption), ?_⟩, ih _ _ _ hrec⟩
      simp only [valueOk]
      exact takeBalanced_isBalanced _ 0 _ _ (by assumption)
    · refine ⟨⟨nameOk_lowerAll_takeWhile _ (by assumption), ?_⟩, ih _ _ _ hrec⟩
      simp only [valueOk]
      exact takeQuoted_isBalanced _ 0 _ _ (by assumption)
    · refine ⟨⟨nameOk_lowerAll_takeWhile _ (by assumption), ?_⟩, ih _ _ _ hrec⟩
      simp only [valueOk]
      rw [balancedAux_of_no_brace _ 0 (fun x hx =>
        alnumChar_not_brace x (takeWhileMem alnumChar _ x hx))]
      rfl

theorem parseAtItem_wf (cs : List Char) (it : BItem) (r : List Char)
    (h : parseAtItem cs = some (it, r)) :
    itemOk it = true ∧ isCommentItem it = false := by
  rw [parseAtItem] at h
  repeat' split at h
  any_goals exact Option.noConfusion h
  · simp only [Option.some_inj, Prod.mk.injEq] at h
    obtain ⟨hit, hr⟩ := h
    subst hit
    refine ⟨?_, rfl⟩
    simp only [itemOk, Bool.and_eq_true, decide_eq_true_eq]
    refine ⟨by assumption, ?_⟩
    simp only [valueOk]
    exact takeBalanced_isBalanced _ 0 _ _ (by assumption)
  · simp only [Option.some_inj, Prod.mk.injEq] at h
    obtain ⟨hit, hr⟩ := h
    subst hit
    refine ⟨?_, rfl⟩
    simp only [itemOk, entryOk, Bool.and_eq_true, decide_eq_true_eq, List.all_eq_true]
    refine ⟨⟨⟨⟨⟨?_, ?_⟩, ?_⟩, ?_⟩, ?_⟩, ?_⟩
    · exact lowerAll_ne_nil _ (by assumption)
    · intro x hx
      simp only [lowerAll, List.mem_map] at hx
      obtain ⟨y, hy, hxy⟩ := hx
      subst hxy
      exact alphaChar_lowerChar y (takeWhileMem alphaChar _ y hy)
    · exact lowerAll_idem _
    · assumption
    · intro x hx
      exact takeWhileMem keyChar _ x hx
    · have := parseFieldsF_wf _ _ _ _ (by assumption : parseFieldsF _ _ = some _)
      simpa only [List.all_eq_true] using this

/-- Whether a document does not start with a comment item. -/
def headNC : List BItem → Bool
  | .comment _ :: _ => false
  | _ => true

theorem noAdj_cons (it : BItem) (its : List BItem) (h : isCommentItem it = false)
    (h2 : noAdjComments its = true) : noAdjComments (it :: its) = true := by
  cases its with
  | nil => rfl
  | cons b bs => simp [noAdjComments, h, h2]

theorem noAdj_comment_cons (c : List Char) (its : List BItem) (h : headNC its = true)
    (h2 : noAdjComments its = true) : noAdjComments (.comment c :: its) = true := by
  cases its with
  | nil => rfl
  | cons b bs =>
    have hb : isCommentItem b = false := by
      cases b with
      | comment c2 => simp [headNC] at h
      | entry e => rfl
      | directive d bd => rfl
    simp [noAdjComments, hb, h2]

theorem itemsOk_build (it : BItem) (its : List BItem) (h1 : itemOk it = true)
    (h2 : isCommentItem it = false) (h3 : itemsOk its = true) :
    itemsOk (it :: its) = true := by
  simp only [itemsOk, List.all_cons, Bool.and_eq_true] at h3 ⊢
  exact ⟨⟨h1, h3.1⟩, noAdj_cons it its h2 h3.2⟩

theorem itemsOk_build_comment (c : List Char) (its : List BItem)
    (h1 : itemOk (.comment c) = true) (h2 : headNC its = true)
    (h3 : itemsOk its = true) : itemsOk (.comment c :: its) = true := by
  simp only [itemsOk, List.all_cons, Bool.and_eq_true] at h3 ⊢
  exact ⟨⟨h1, h3.1⟩, noAdj_comment_cons c its h2 h3.2⟩

theorem preComment_ok (cs : List Char) :
    itemsOk (preComment (cs.takeWhile (fun c => !(c = '@')))) = true ∧
      (∀ its, itemsOk its = true → headNC its = true →
        itemsOk (preComment (cs.takeWhile (fun c => !(c = '@'))) ++ its) = true) := by
  by_cases h : (cs.takeWhile (fun c => !(c = '@'))).any (fun c => !(wsChar c)) = true
  · have hok : itemOk (.comment (cs.takeWhile (fun c => !(c = '@')))) = true := by
      simp only [itemOk, Bool.and_eq_true, List.all_eq_true]
      exact ⟨h, fun x hx => takeWhileMem _ cs x hx⟩
    constructor
    · simp only [preComment, h, if_true]
      exact itemsOk_build_comment _ [] hok rfl rfl
    · intro its hits hnc
      simp only [preComment, h, if_true, List.cons_append, List.nil_append]
      exact itemsOk_build_comment _ its hok hnc hits
  · have hf : (cs.takeWhile (fun c => !(c = '@'))).any (fun c => !(wsChar c)) = false := by
      simpa using h
    constructor
    · simp only [preComment, hf, Bool.false_eq_true, if_false]
      rfl
    · intro its hits _
      simpa [preComment, hf] using hits

theorem dropWhile_at_headfalse (cs : List Char) :
    ((cs.dropWhile (fun c => !(c = '@'))).takeWhile (fun c => !(c = '@'))).any
      (fun c => !(wsChar c)) = false := by
  rcases dropWhileHead (fun c => !(c = '@')) cs with h | ⟨c, cs', h, hc⟩
  · simp [h]
  · rw [h, takeWhileStop _ c cs' hc]
    rfl

theorem parseItemsF_wf (f : Nat) :
    ∀ cs, itemsOk (parseItemsF f cs).1 = true ∧
      ((cs.takeWhile (fun c => !(c = '@'))).any (fun c => !(wsChar c)) = false →
        headNC (parseItemsF f cs).1 = true) := by
  induction f with
  | zero => intro cs; exact ⟨rfl, fun _ => rfl⟩
  | succ f ih =>
    intro cs
    rcases h1 : cs.dropWhile (fun c => !(c = '@')) with _ | ⟨c0, afterAt⟩
    · rw [parseItemsF, h1]
      refine ⟨(preComment_ok cs).1, ?_⟩
      intro hany
      simp [preComment, hany, headNC]
    · rcases h2 : parseAtItem afterAt with _ | ⟨⟨it, rest⟩⟩
      · -- malformed: recovery
        have hrec := ih (afterAt.dropWhile (fun c => !(c = '@')))
        have hheadrec : headNC (parseItemsF f
            (afterAt.dropWhile (fun c => !(c = '@')))).1 = true :=
          hrec.2 (dropWhile_at_headfalse afterAt)
        rw [parseItemsF, h1]
        simp only [h2]
        constructor
        · exact ((preComment_ok cs).2 _ hrec.1 hheadrec)
        · intro hany
          simp only [preComment, hany, Bool.false_eq_true, if_false, List.nil_append]
          exact hheadrec
      · have hit := parseAtItem_wf afterAt it rest h2
        have hrec := ih rest
        rw [parseItemsF, h1]
        simp only [h2]
        constructor
        · refine ((preComment_ok cs).2 _ ?_ ?_)
          · exact itemsOk_build it _ hit.1 hit.2 hrec.1
          · cases it with
            | comment cc => simp [isCommentItem] at hit
            | entry e => rfl
            | directive d b => rfl
        · intro hany
          simp only [preComment, hany, Bool.false_eq_true, if_false, List.nil_append]
          cases it with
          | comment cc => simp [isCommentItem] at hit
          | entry e => rfl
          | directive d b => rfl

/-- The parsed document always satisfies the well-formedness invariant. -/
theorem parseBib_wf (cs : List Char) : itemsOk (parseBib cs).1 = true :=
  (parseItemsF_wf (cs.length + 1) cs).1

theorem charToNat_inj (a b : Char) (h : a.toNat = b.toNat) : a = b := by
  apply Char.ext
  apply UInt32.ext
  exact h

theorem cmpChars_refl (a : List Char) : cmpChars a a = .eq := by
  induction a with
  | nil => rfl
  | cons c cs ih => simp [cmpChars, ih]

theorem cmpChars_eq_iff (a : List Char) : ∀ b, cmpChars a b = .eq ↔ a = b := by
  induction a with
  | nil =>
    intro b
    cases b <;> simp [cmpChars]
  | cons c cs ih =>
    intro b
    cases b with
    | nil => simp [cmpChars]
    | cons d ds =>
      by_cases h1 : c.toNat < d.toNat
      · simp only [cmpChars, h1, if_true]
        constructor
        · intro h; exact absurd h (by simp)
        · rintro ⟨⟩
          omega
      · by_cases h2 : d.toNat < c.toNat
        · simp only [cmpChars, h1, h2, if_false, if_true]
          constructor
          · intro h; exact absurd h (by simp)
          · rintro ⟨⟩
            omega
        · have hcd : c = d := charToNat_inj c d (by omega)
          subst hcd
          simp only [cmpChars, h1, h2, if_false]
          rw [ih ds]
          simp

theorem cmpChars_swap (a : List Char) : ∀ b, cmpChars b a = (cmpChars a b).swap := by
  induction a with
  | nil =>
    intro b
    cases b <;> rfl
  | cons c cs ih =>
    intro b
    cases b with
    | nil => rfl
    | cons d ds =>
      by_cases h1 : c.toNat < d.toNat
      · have h2 : ¬ d.toNat < c.toNat := by omega
        simp [cmpChars, h1, h2, Ordering.swap]
      · by_cases h2 : d.toNat < c.toNat
        · simp [cmpChars, h1, h2, Ordering.swap]
        · simp [cmpChars, h1, h2, ih ds]

theorem cmpChars_lt_trans (a : List Char) :
    ∀ b c, cmpChars a b = .lt → cmpChars b c = .lt → cmpChars a c = .lt := by
  induction a with
  | nil =>
    intro b c hab hbc
    cases c with
    | nil =>
      cases b with
      | nil => exact hab
      | cons d ds => exact Ordering.noConfusion hbc
    | cons e es => rfl
  | cons x xs ih =>
    intro b c hab hbc
    cases b with
    | nil => simp [cmpChars] at hab
    | cons y ys =>
      cases c with
      | nil => simp [cmpChars] at hbc
      | cons z zs =>
        by_cases h1 : x.toNat < y.toNat
        · by_cases h2 : y.toNat < z.toNat
          · have : x.toNat < z.toNat := by omega
            simp [cmpChars, this]
          · by_cases h3 : z.toNat < y.toNat
            · simp [cmpChars, h2, h3] at hbc
            · have hyz : y = z := charToNat_inj y z (by omega)
              subst hyz
              simp [cmpChars, h1]
        · by_cases h4 : y.toNat < x.toNat
          · simp [cmpChars, h1, h4] at hab
          · have hxy : x = y := charToNat_inj x y (by omega)
            subst hxy
            simp only [cmpChars, h1, if_false] at hab
            by_cases h2 : x.toNat < z.toNat
            · simp [cmpChars, h2]
            · by_cases h3 : z.toNat < x.toNat
              · simp [cmpChars, h2, h3] at hbc
              · simp only [cmpChars, h2, h3, if_false] at hbc ⊢
                exact ih ys zs hab hbc

theorem optCmp_refl (a : Option (List Char)) : optCmp a a = .eq := by
  cases a with
  | none => rfl
  | some v => simp [optCmp, cmpChars_refl]

theorem optCmp_eq_iff (a b : Option (List Char)) : optCmp a b = .eq ↔ a = b := by
  cases a <;> cases b <;> simp [optCmp, cmpChars_eq_iff]

theorem optCmp_swap (a b : Option (List Char)) : optCmp b a = (optCmp a b).swap := by
  cases a <;> cases b
  · rfl
  · rfl
  · rfl
  · simp only [optCmp]
    exact cmpChars_swap _ _

theorem optCmp_lt_trans (a b c : Option (List Char)) (hab : optCmp a b = .lt)
    (hbc : optCmp b c = .lt) : optCmp a c = .lt := by
  cases a <;> cases b <;> cases c <;> simp_all [optCmp]
  exact cmpChars_lt_trans _ _ _ hab hbc

theorem entryCmp_swap (ks : List SortKey) (a b : BEntry) :
    entryCmp ks b a = (entryCmp ks a b).swap := by
  induction ks with
  | nil => rfl
  | cons k ks ih =>
    simp only [entryCmp, optCmp_swap (sortValueOf k a) (sortValueOf k b)]
    match h : optCmp (sortValueOf k a) (sortValueOf k b) with
    | .eq => simpa [Ordering.swap] using ih
    | .lt => rfl
    | .gt => rfl

theorem entryCmp_le_trans (ks : List SortKey) (a b c : BEntry)
    (hab : ¬ entryCmp ks a b = .gt) (hbc : ¬ entryCmp ks b c = .gt) :
    ¬ entryCmp ks a c = .gt := by
  induction ks with
  | nil => simp [entryCmp]
  | cons k ks ih =>
    simp only [entryCmp] at hab hbc ⊢
    match h1 : optCmp (sortValueOf k a) (sortValueOf k b),
        h2 : optCmp (sortValueOf k b) (sortValueOf k c) with
    | .eq, .eq =>
      have e1 := (optCmp_eq_iff _ _).1 h1
      have e2 := (optCmp_eq_iff _ _).1 h2
      rw [e1, e2, optCmp_refl]
      rw [h1] at hab
      rw [h2] at hbc
      exact ih hab hbc
    | .eq, .lt =>
      have e1 := (optCmp_eq_iff _ _).1 h1
      rw [e1, h2]
      simp
    | .lt, .eq =>
      have e2 := (optCmp_eq_iff _ _).1 h2
      rw [← e2, h1]
      simp
    | .lt, .lt =>
      rw [optCmp_lt_trans _ _ _ h1 h2]
      simp
    | .gt, _ =>
      rw [h1] at hab
      exact absurd rfl hab
    | .eq, .gt =>
      rw [h2] at hbc
      exact absurd rfl hbc
    | .lt, .gt =>
      rw [h2] at hbc
      exact absurd rfl hbc

theorem entryLeB_total (ks : List SortKey) (a b : BEntry) :
    entryLeB ks a b = true ∨ entryLeB ks b a = true := by
  simp only [entryLeB]
  rw [entryCmp_swap ks a b]
  match entryCmp ks a b with
  | .eq => left; rfl
  | .lt => left; rfl
  | .gt => right; rfl

theorem entryLeB_trans (ks : List SortKey) (a b c : BEntry)
    (hab : entryLeB ks a b = true) (hbc : entryLeB ks b c = true) :
    entryLeB ks a c = true := by
  simp only [entryLeB] at hab hbc ⊢
  have h1 : ¬ entryCmp ks a b = .gt := by
    intro h
    rw [h] at hab
    exact absurd hab (by simp)
  have h2 : ¬ entryCmp ks b c = .gt := by
    intro h
    rw [h] at hbc
    exact absurd hbc (by simp)
  have := entryCmp_le_trans ks a b c h1 h2
  match h : entryCmp ks a c with
  | .eq => rfl
  | .lt => rfl
  | .gt => exact absurd h this

theorem insOrd_perm {α : Type} (le : α → α → Bool) (a : α) (l : List α) :
    (insOrd le a l).Perm (a :: l) := by
  induction l with
  | nil => exact List.Perm.refl _
  | cons b bs ih =>
    by_cases h : le a b = true
    · simp only [insOrd, h, if_true]
      exact List.Perm.refl _
    · simp only [insOrd, h, Bool.false_eq_true, if_false]
      exact (ih.cons b).trans (List.Perm.swap a b bs)

theorem insSort_perm {α : Type} (le : α → α → Bool) (l : List α) :
    (insSort le l).Perm l := by
  induction l with
  | nil => exact List.Perm.refl _
  | cons a l ih =>
    exact (insOrd_perm le a (insSort le l)).trans (ih.cons a)

theorem insOrd_pairwise {α : Type} (le : α → α → Bool)
    (htot : ∀ x y, le x y = true ∨ le y x = true)
    (htrans : ∀ x y z, le x y = true → le y z = true → le x z = true)
    (a : α) (l : List α) (h : l.Pairwise (fun x y => le x y = true)) :
    (insOrd le a l).Pairwise (fun x y => le x y = true) := by
  induction l with
  | nil => simp [insOrd]
  | cons b bs ih =>
    rw [List.pairwise_cons] at h
    by_cases hab : le a b = true
    · simp only [insOrd, hab, if_true]
      rw [List.pairwise_cons]
      refine ⟨?_, List.pairwise_cons.2 h⟩
      intro x hx
      rcases List.mem_cons.1 hx with hx | hx
      · subst hx; exact hab
      · exact htrans a b x hab (h.1 x hx)
    · have hba : le b a = true := by
        rcases htot a b with h1 | h1
        · exact absurd h1 hab
        · exact h1
      simp only [insOrd, hab, Bool.false_eq_true, if_false]
      rw [List.pairwise_cons]
      refine ⟨?_, ih h.2⟩
      intro x hx
      have := (insOrd_perm le a bs).mem_iff.1 hx
      rcases List.mem_cons.1 this with hx2 | hx2
      · subst hx2; exact hba
      · exact h.1 x hx2

theorem insSort_pairwise {α : Type} (le : α → α → Bool)
    (htot : ∀ x y, le x y = true ∨ le y x = true)
    (htrans : ∀ x y z, le x y = true → le y z = true → le x z = true)
    (l : List α) : (insSort le l).Pairwise (fun x y => le x y = true) := by
  induction l with
  | nil => simp [insSort]
  | cons a l ih => exact insOrd_pairwise le htot htrans a _ ih

theorem insSort_of_pairwise {α : Type} (le : α → α → Bool) (l : List α)
    (h : l.Pairwise (fun x y => le x y = true)) : insSort le l = l := by
  induction l with
  | nil => rfl
  | cons a l ih =>
    rw [List.pairwise_cons] at h
    rw [insSort, ih h.2]
    cases l with
    | nil => rfl
    | cons b bs =>
      have hab : le a b = true := h.1 b (by simp)
      simp [insOrd, hab]

theorem insOrd_app_ge {α : Type} (le : α → α → Bool) (a : α) (l1 l2 : List α)
    (h : ∀ b ∈ l1, le a b = false) :
    insOrd le a (l1 ++ l2) = l1 ++ insOrd le a l2 := by
  induction l1 with
  | nil => rfl
  | cons x xs ih =>
    have hx := h x (by simp)
    simp only [List.cons_append, insOrd, hx, Bool.false_eq_true, if_false, List.append_eq]
    rw [ih (fun b hb => h b (by simp [hb]))]

theorem insOrd_app_le {α : Type} (le : α → α → Bool) (a : α) (l1 l2 : List α)
    (h : ∀ b ∈ l2, le a b = true) :
    insOrd le a (l1 ++ l2) = insOrd le a l1 ++ l2 := by
  induction l1 with
  | nil =>
    cases l2 with
    | nil => rfl
    | cons b bs =>
      have hb := h b (by simp)
      simp [insOrd, hb]
  | cons x xs ih =>
    by_cases hx : le a x = true
    · simp [insOrd, hx]
    · simp only [List.cons_append, insOrd, hx, Bool.false_eq_true, if_false,
        List.append_eq, ih]

/-- Whether an entry lacks the sort field `fn`. -/
def lacksField (fn : List Char) (e : BEntry) : Bool :=
  decide (findField e.fields fn = none)

theorem le_has_lacks (fn : List Char) (a b : BEntry) (ha : lacksField fn a = false)
    (hb : lacksField fn b = true) : entryLeB [.byField fn] a b = true := by
  simp only [lacksField, decide_eq_true_eq, decide_eq_false_iff_not] at ha hb
  match h1 : findField a.fields fn with
  | none => exact absurd h1 ha
  | some va =>
    simp [entryLeB, entryCmp, sortValueOf, h1, hb, optCmp]

theorem le_lacks_has (fn : List Char) (a b : BEntry) (ha : lacksField fn a = true)
    (hb : lacksField fn b = false) : entryLeB [.byField fn] a b = false := by
  simp only [lacksField, decide_eq_true_eq, decide_eq_false_iff_not] at ha hb
  match h1 : findField b.fields fn with
  | none => exact absurd h1 hb
  | some vb =>
    simp [entryLeB, entryCmp, sortValueOf, h1, ha, optCmp]

theorem le_lacks_lacks (fn : List Char) (a b : BEntry) (ha : lacksField fn a = true)
    (hb : lacksField fn b = true) : entryLeB [.byField fn] a b = true := by
  simp only [lacksField, decide_eq_true_eq] at ha hb
  simp [entryLeB, entryCmp, sortValueOf, ha, hb, optCmp]

theorem insOrd_cons_all_le {α : Type} (le : α → α → Bool) (a : α) (l : List α)
    (h : ∀ b ∈ l, le a b = true) : insOrd le a l = a :: l := by
  cases l with
  | nil => rfl
  | cons b bs => simp [insOrd, h b (by simp)]

theorem insSort_single_key (fn : List Char) (es : List BEntry) :
    ∃ pre, insSort (entryLeB [.byField fn]) es =
        pre ++ es.filter (lacksField fn) ∧
      ∀ e ∈ pre, lacksField fn e = false := by
  induction es with
  | nil => exact ⟨[], rfl, by simp⟩
  | cons a es ih =>
    obtain ⟨pre, hsort, hpre⟩ := ih
    by_cases ha : lacksField fn a = true
    · refine ⟨pre, ?_, hpre⟩
      rw [insSort, hsort]
      rw [insOrd_app_ge _ a pre _ (fun b hb => le_lacks_has fn a b ha (hpre b hb))]
      rw [insOrd_cons_all_le _ a _ (fun b hb => by
        have hbl : lacksField fn b = true := List.of_mem_filter hb
        exact le_lacks_lacks fn a b ha hbl)]
      rw [List.filter_cons, ha]
      simp
    · have ha' : lacksField fn a = false := by simpa using ha
      refine ⟨insOrd (entryLeB [.byField fn]) a pre, ?_, ?_⟩
      · rw [insSort, hsort]
        rw [insOrd_app_le _ a pre _ (fun b hb => by
          have hbl : lacksField fn b = true := List.of_mem_filter hb
          exact le_has_lacks fn a b ha' hbl)]
        rw [List.filter_cons, ha']
        simp
      · intro e he
        have := (insOrd_perm _ a pre).mem_iff.1 he
        rcases List.mem_cons.1 this with he2 | he2
        · subst he2; exact ha'
        · exact hpre e he2

theorem entriesOf_replaceEntries (items : List BItem) :
    ∀ es, (entriesOf items).length = es.length →
      entriesOf (replaceEntries items es) = es := by
  induction items with
  | nil =>
    intro es h
    simp only [entriesOf] at h
    cases es with
    | nil => rfl
    | cons e es => simp at h
  | cons it its ih =>
    intro es h
    cases it with
    | entry e0 =>
      cases es with
      | nil => simp [entriesOf] at h
      | cons e es =>
        simp only [replaceEntries, entriesOf]
        rw [ih es (by simpa [entriesOf] using h)]
    | comment c =>
      simp only [replaceEntries, entriesOf]
      exact ih es (by simpa [entriesOf] using h)
    | directive d b =>
      simp only [replaceEntries, entriesOf]
      exact ih es (by simpa [entriesOf] using h)

theorem replaceEntries_self (items : List BItem) :
    replaceEntries items (entriesOf items) = items := by
  induction items with
  | nil => rfl
  | cons it its ih =>
    cases it with
    | entry e0 => simp [replaceEntries, entriesOf, ih]
    | comment c => simp [replaceEntries, entriesOf, ih]
    | directive d b => simp [replaceEntries, entriesOf, ih]

theorem replaceEntries_commentMap (items : List BItem) :
    ∀ es, (replaceEntries items es).map isCommentItem = items.map isCommentItem := by
  induction items with
  | nil => intro es; rfl
  | cons it its ih =>
    intro es
    cases it with
    | entry e0 =>
      cases es with
      | nil => simp [replaceEntries, isCommentItem, ih]
      | cons e es => simp [replaceEntries, isCommentItem, ih]
    | comment c => simp [replaceEntries, isCommentItem, ih]
    | directive d b => simp [replaceEntries, isCommentItem, ih]

theorem noAdj_congr_struct (items : List BItem) :
    ∀ items', items.map isCommentItem = items'.map isCommentItem →
      noAdjComments items = noAdjComments items' := by
  induction items with
  | nil =>
    intro items' h
    cases items' with
    | nil => rfl
    | cons b bs => simp at h
  | cons it its ih =>
    intro items' h
    cases items' with
    | nil => simp at h
    | cons it' its' =>
      simp only [List.map_cons, List.cons.injEq] at h
      cases its with
      | nil =>
        cases its' with
        | nil => rfl
        | cons b bs => simp at h
      | cons b bs =>
        cases its' with
        | nil => simp at h
        | cons b' bs' =>
          simp only [List.map_cons, List.cons.injEq] at h
          simp only [noAdjComments, h.1, h.2.1]
          rw [ih (b' :: bs') (by simp [h.2.1, h.2.2])]

theorem replaceEntries_all_ok (items : List BItem) :
    ∀ es, items.all itemOk = true → (∀ e ∈ es, entryOk e = true) →
      (replaceEntries items es).all itemOk = true := by
  induction items with
  | nil => intro es _ _; rfl
  | cons it its ih =>
    intro es hall hes
    simp only [List.all_cons, Bool.and_eq_true] at hall
    cases it with
    | entry e0 =>
      cases es with
      | nil =>
        simp only [replaceEntries, List.all_cons, Bool.and_eq_true]
        exact ⟨hall.1, ih [] hall.2 (by simp)⟩
      | cons e es =>
        simp only [replaceEntries, List.all_cons, Bool.and_eq_true]
        refine ⟨hes e (by simp), ih es hall.2 (fun x hx => hes x (by simp [hx]))⟩
    | comment c =>
      simp only [replaceEntries, List.all_cons, Bool.and_eq_true]
      exact ⟨hall.1, ih es hall.2 hes⟩
    | directive d b =>
      simp only [replaceEntries, List.all_cons, Bool.and_eq_true]
      exact ⟨hall.1, ih es hall.2 hes⟩

theorem itemsOk_replaceEntries (items : List BItem) (es : List BEntry)
    (h : itemsOk items = true) (hes : ∀ e ∈ es, entryOk e = true) :
    itemsOk (replaceEntries items es) = true := by
  simp only [itemsOk, Bool.and_eq_true] at h ⊢
  refine ⟨replaceEntries_all_ok items es h.1 hes, ?_⟩
  rw [noAdj_congr_struct _ items (replaceEntries_commentMap items es)]
  exact h.2

/-- No two fields share a name. -/
def fieldsNodup (fs : List BField) : Prop :=
  fs.Pairwise (fun a b => ¬ a.fname = b.fname)

theorem dedupFieldsLast_sublist (fs : List BField) :
    (dedupFieldsLast fs).Sublist fs := by
  induction fs with
  | nil => exact List.Sublist.refl _
  | cons fl fs ih =>
    by_cases h : fs.any (fun g => g.fname = fl.fname) = true
    · simp only [dedupFieldsLast, h, if_true]
      exact ih.cons fl
    · simp only [dedupFieldsLast, h, Bool.false_eq_true, if_false]
      exact ih.cons₂ fl

theorem dedupFieldsLast_nodup (fs : List BField) : fieldsNodup (dedupFieldsLast fs) := by
  induction fs with
  | nil => exact List.Pairwise.nil
  | cons fl fs ih =>
    by_cases h : fs.any (fun g => g.fname = fl.fname) = true
    · simpa only [dedupFieldsLast, h, if_true] using ih
    · simp only [dedupFieldsLast, h, Bool.false_eq_true, if_false]
      rw [fieldsNodup, List.pairwise_cons]
      refine ⟨?_, ih⟩
      intro g hg hname
      have hgfs : g ∈ fs := (dedupFieldsLast_sublist fs).mem hg
      have : fs.any (fun g => g.fname = fl.fname) = true := by
        rw [List.any_eq_true]
        exact ⟨g, hgfs, by simp [hname]⟩
      exact absurd this h

theorem dedupFieldsLast_of_nodup (fs : List BField) (h : fieldsNodup fs) :
    dedupFieldsLast fs = fs := by
  induction fs with
  | nil => rfl
  | cons fl fs ih =>
    rw [fieldsNodup, List.pairwise_cons] at h
    have hany : fs.any (fun g => g.fname = fl.fname) = false := by
      rw [List.any_eq_false]
      intro g hg
      simp only [decide_eq_true_eq]
      intro hname
      exact absurd hname.symm (h.1 g hg)
    simp only [dedupFieldsLast, hany, Bool.false_eq_true, if_false]
    rw [ih h.2]

theorem normValue_idem (opts : TidyOptions) (v : List Char) :
    normValue opts (normValue opts v) = normValue opts v := by
  by_cases h : opts.collapseWhitespace = true
  · simp [normValue, h, collapseWs_idem]
  · simp only [normValue, h, Bool.false_eq_true, if_false]

theorem mapNorm_eq (l : List BField) (f : BField → BField) (h : ∀ x ∈ l, f x = x) :
    l.map f = l := by
  induction l with
  | nil => rfl
  | cons x xs ih =>
    simp only [List.map_cons, h x (by simp)]
    rw [ih (fun y hy => h y (by simp [hy]))]

theorem normalizeEntry_fst_idem (opts : TidyOptions) (e : BEntry) :
    (normalizeEntry opts (normalizeEntry opts e).1).1 = (normalizeEntry opts e).1 := by
  simp only [normalizeEntry]
  have hnodup : fieldsNodup (((dedupFieldsLast e.fields).filter
      (fun fl => !(decide (fl.fname ∈ opts.stripFields)))).map
      (fun fl => ⟨fl.fname, normValue opts fl.fval⟩)) := by
    rw [fieldsNodup, List.pairwise_map]
    have h1 : fieldsNodup ((dedupFieldsLast e.fields).filter
        (fun fl => !(decide (fl.fname ∈ opts.stripFields)))) :=
      List.Pairwise.sublist (List.filter_sublist _) (dedupFieldsLast_nodup e.fields)
    exact h1.imp (fun h => h)
  rw [dedupFieldsLast_of_nodup _ hnodup]
  rw [List.filter_eq_self.2 (by
    intro fl hfl
    simp only [List.mem_map] at hfl
    obtain ⟨fl0, hfl0, heq⟩ := hfl
    have := List.of_mem_filter hfl0
    subst heq
    simpa using this)]
  rw [mapNorm_eq _ _ (by
    intro fl hfl
    simp only [List.mem_map] at hfl
    obtain ⟨fl0, _, heq⟩ := hfl
    subst heq
    simp [normValue_idem])]

theorem normalizeEntry_ok (opts : TidyOptions) (e : BEntry) (h : entryOk e = true) :
    entryOk (normalizeEntry opts e).1 = true := by
  simp only [entryOk, Bool.and_eq_true, decide_eq_true_eq, List.all_eq_true] at h ⊢
  obtain ⟨⟨⟨⟨⟨h1, h2⟩, h3⟩, h4⟩, h5⟩, h6⟩ := h
  refine ⟨⟨⟨⟨⟨h1, h2⟩, h3⟩, h4⟩, h5⟩, ?_⟩
  intro fl hfl
  simp only [normalizeEntry, List.mem_map] at hfl
  obtain ⟨fl0, hfl0, heq⟩ := hfl
  have hmem : fl0 ∈ e.fields :=
    (dedupFieldsLast_sublist e.fields).mem (List.mem_of_mem_filter hfl0)
  have hok := h6 fl0 hmem
  subst heq
  simp only [fieldOk, Bool.and_eq_true] at hok ⊢
  refine ⟨hok.1, ?_⟩
  simp only [valueOk, normValue]
  by_cases hc : opts.collapseWhitespace = true
  · simp only [hc, if_true]
    rw [collapseWs_balanced]
    exact hok.2
  · simp only [hc, Bool.false_eq_true, if_false]
    exact hok.2

theorem normalizeItems_fst (opts : TidyOptions) (items : List BItem) :
    (normalizeItems opts items).1 = items.map (fun it => (normalizeItem opts it).1) := by
  induction items with
  | nil => rfl
  | cons it its ih => simp [normalizeItems, ih]

theorem normalizeItem_comment (opts : TidyOptions) (it : BItem) :
    isCommentItem (normalizeItem opts it).1 = isCommentItem it := by
  cases it <;> rfl

theorem normalizeItem_ok (opts : TidyOptions) (it : BItem) (h : itemOk it = true) :
    itemOk (normalizeItem opts it).1 = true := by
  cases it with
  | entry e => exact normalizeEntry_ok opts e h
  | comment c => exact h
  | directive d b => exact h

theorem itemsOk_normalizeItems (opts : TidyOptions) (items : List BItem)
    (h : itemsOk items = true) : itemsOk (normalizeItems opts items).1 = true := by
  simp only [itemsOk, Bool.and_eq_true, List.all_eq_true] at h ⊢
  constructor
  · intro it hit
    rw [normalizeItems_fst] at hit
    simp only [List.mem_map] at hit
    obtain ⟨it0, hit0, heq⟩ := hit
    subst heq
    exact normalizeItem_ok opts it0 (h.1 it0 hit0)
  · rw [normalizeItems_fst]
    rw [noAdj_congr_struct _ items (by
      rw [List.map_map]
      apply List.map_congr_left
      intro it _
      exact normalizeItem_comment opts it)]
    exact h.2

theorem normalizeItems_of_fixed (opts : TidyOptions) (items : List BItem)
    (h : ∀ it ∈ items, (normalizeItem opts it).1 = it) :
    (normalizeItems opts items).1 = items := by
  rw [normalizeItems_fst]
  induction items with
  | nil => rfl
  | cons it its ih =>
    simp only [List.map_cons, h it (by simp)]
    rw [ih (fun x hx => h x (by simp [hx]))]

theorem entriesOf_normalizeItems (opts : TidyOptions) (items : List BItem) :
    entriesOf (normalizeItems opts items).1 =
      (entriesOf items).map (fun e => (normalizeEntry opts e).1) := by
  induction items with
  | nil => rfl
  | cons it its ih =>
    cases it with
    | entry e => simp [normalizeItems, normalizeItem, entriesOf, ih]
    | comment c => simp [normalizeItems, normalizeItem, entriesOf, ih]
    | directive d b => simp [normalizeItems, normalizeItem, entriesOf, ih]

theorem genKeysAux_skel (seen : List (List Char)) (es : List BEntry) :
    (genKeysAux seen es).map (fun e => (e.etype, e.fields)) =
      es.map (fun e => (e.etype, e.fields)) := by
  induction es generalizing seen with
  | nil => rfl
  | cons e es ih => simp [genKeysAux, ih]

theorem baseKeyOf_congr (a b : BEntry) (h : a.fields = b.fields) :
    baseKeyOf a = baseKeyOf b := by
  simp [baseKeyOf, h]

theorem genKeysAux_congr (es : List BEntry) :
    ∀ es' seen, es.map (fun e => (e.etype, e.fields)) =
        es'.map (fun e => (e.etype, e.fields)) →
      genKeysAux seen es = genKeysAux seen es' := by
  induction es with
  | nil =>
    intro es' seen h
    cases es' with
    | nil => rfl
    | cons e es' => simp at h
  | cons e es ih =>
    intro es' seen h
    cases es' with
    | nil => simp at h
    | cons e' es' =>
      simp only [List.map_cons, List.cons.injEq, Prod.mk.injEq] at h
      obtain ⟨⟨ht, hf⟩, htl⟩ := h
      have hbase : baseKeyOf e = baseKeyOf e' := baseKeyOf_congr e e' hf
      simp only [genKeysAux, hbase, ht, hf]
      rw [ih es' (baseKeyOf e' :: seen) htl]

theorem genKeysAux_idem (es : List BEntry) :
    genKeysAux [] (genKeysAux [] es) = genKeysAux [] es :=
  genKeysAux_congr _ _ [] (genKeysAux_skel [] es)

theorem genKeysAux_length (seen : List (List Char)) (es : List BEntry) :
    (genKeysAux seen es).length = es.length := by
  induction es generalizing seen with
  | nil => rfl
  | cons e es ih => simp [genKeysAux, ih]

theorem alnum_of_mem_alnumLower (v : List Char) (c : Char) (h : c ∈ alnumLower v) :
    alnumChar c = true := by
  simp only [alnumLower, lowerAll, List.mem_map, List.mem_filter] at h
  obtain ⟨y, ⟨_, hy⟩, heq⟩ := h
  subst heq
  exact alnumChar_lowerChar y hy

theorem alnum_of_mem_suffix (n : Nat) (c : Char) (h : c ∈ suffixFor n) :
    alnumChar c = true := by
  simp only [suffixFor] at h
  by_cases h0 : n = 0
  · simp [h0] at h
  · simp only [h0, if_false, List.mem_replicate] at h
    obtain ⟨_, heq⟩ := h
    subst heq
    rw [alnumChar_iff]
    have hlt : (n - 1) % 26 < 26 := Nat.mod_lt _ (by omega)
    rw [charToNat_ofNat _ (by omega)]
    omega

theorem baseKeyOf_keyChar (e : BEntry) (c : Char) (h : c ∈ baseKeyOf e) :
    keyChar c = true := by
  apply alnumChar_keyChar
  simp only [baseKeyOf, List.mem_append] at h
  rcases h with (h | h) | h
  · match h1 : findField e.fields (("author").data) with
    | none => rw [h1] at h; simp at h
    | some v =>
      rw [h1] at h
      exact alnum_of_mem_alnumLower _ c h
  · match h1 : findField e.fields (("year").data) with
    | none => rw [h1] at h; simp at h
    | some v =>
      rw [h1] at h
      exact (List.mem_filter.1 h).2
  · match h1 : findField e.fields (("title").data) with
    | none => rw [h1] at h; simp at h
    | some v =>
      rw [h1] at h
      exact alnum_of_mem_alnumLower _ c h

theorem genKeysAux_entryOk (es : List BEntry) :
    ∀ seen, (∀ e ∈ es, entryOk e = true) →
      ∀ e' ∈ genKeysAux seen es, entryOk e' = true := by
  induction es with
  | nil => intro seen _ e' he'; simp [genKeysAux] at he'
  | cons e es ih =>
    intro seen hes e' he'
    simp only [genKeysAux, List.mem_cons] at he'
    rcases he' with he' | he'
    · have hok := hes e (by simp)
      subst he'
      simp only [entryOk, Bool.and_eq_true, decide_eq_true_eq, List.all_eq_true] at hok ⊢
      obtain ⟨⟨⟨⟨⟨h1, h2⟩, h3⟩, h4⟩, _⟩, h6⟩ := hok
      refine ⟨⟨⟨⟨⟨h1, h2⟩, h3⟩, h4⟩, ?_⟩, h6⟩
      intro c hc
      simp only [List.mem_append] at hc
      rcases hc with hc | hc
      · exact baseKeyOf_keyChar e c hc
      · exact alnumChar_keyChar c (alnum_of_mem_suffix _ c hc)
    · exact ih _ (fun x hx => hes x (by simp [hx])) e' he'

theorem sortValueOf_congr (k : SortKey) (hk : ¬ k = SortKey.byKey) (a b : BEntry)
    (ht : a.etype = b.etype) (hf : a.fields = b.fields) :
    sortValueOf k a = sortValueOf k b := by
  cases k with
  | byKey => exact absurd rfl hk
  | byType => simp [sortValueOf, ht]
  | byField n => simp [sortValueOf, hf]

theorem entryLeB_congr (ks : List SortKey) (hk : ¬ SortKey.byKey ∈ ks)
    (a a' b b' : BEntry) (hta : a.etype = a'.etype) (hfa : a.fields = a'.fields)
    (htb : b.etype = b'.etype) (hfb : b.fields = b'.fields) :
    entryLeB ks a b = entryLeB ks a' b' := by
  have hcmp : entryCmp ks a b = entryCmp ks a' b' := by
    induction ks with
    | nil => rfl
    | cons k ks ih =>
      have hk1 : ¬ k = SortKey.byKey := by
        intro h
        exact hk (by simp [h])
      have hk2 : ¬ SortKey.byKey ∈ ks := by
        intro h
        exact hk (by simp [h])
      simp only [entryCmp, sortValueOf_congr k hk1 a a' hta hfa,
        sortValueOf_congr k hk1 b b' htb hfb, ih hk2]
  simp [entryLeB, hcmp]

theorem pairwise_skel_transfer (R : BEntry → BEntry → Prop)
    (hR : ∀ a a' b b', a.etype = a'.etype → a.fields = a'.fields →
      b.etype = b'.etype → b.fields = b'.fields → R a b → R a' b')
    (es : List BEntry) :
    ∀ es' : List BEntry,
      es.map (fun e => (e.etype, e.fields)) = es'.map (fun e => (e.etype, e.fields)) →
      es.Pairwise R → es'.Pairwise R := by
  induction es with
  | nil =>
    intro es' h _
    cases es' with
    | nil => exact List.Pairwise.nil
    | cons e es' => simp at h
  | cons e es ih =>
    intro es' h hp
    cases es' with
    | nil => simp at h
    | cons e' es' =>
      simp only [List.map_cons, List.cons.injEq, Prod.mk.injEq] at h
      obtain ⟨⟨ht, hf⟩, htl⟩ := h
      rw [List.pairwise_cons] at hp ⊢
      constructor
      · intro b' hb'
        -- find the corresponding member of es
        have hlen : es.length = es'.length := by
          have := congrArg List.length htl
          simpa using this
        -- use membership transfer via the map equality
        have hmem : (b'.etype, b'.fields) ∈ es.map (fun e => (e.etype, e.fields)) := by
          rw [htl]
          exact List.mem_map_of_mem _ hb'
        simp only [List.mem_map, Prod.mk.injEq] at hmem
        obtain ⟨b, hb, htb, hfb⟩ := hmem
        exact hR e e' b b' ht hf htb hfb (hp.1 b hb)
      · exact ih es' htl hp.2

/-- All items are non-comments. -/
def allNotComment (items : List BItem) : Bool :=
  items.all (fun it => !(isCommentItem it))

theorem noAdj_of_allNotComment (items : List BItem) (h : allNotComment items = true) :
    noAdjComments items = true := by
  induction items with
  | nil => rfl
  | cons it its ih =>
    simp only [allNotComment, List.all_cons, Bool.and_eq_true, Bool.not_eq_true'] at h
    apply noAdj_cons it its h.1
    exact ih h.2

theorem stripComments_ok (opts : TidyOptions) (items : List BItem)
    (h : itemsOk items = true) : itemsOk (stripCommentsItems opts items) = true := by
  by_cases hs : opts.stripComments = true
  · simp only [stripCommentsItems, hs, if_true]
    simp only [itemsOk, Bool.and_eq_true, List.all_eq_true] at h ⊢
    constructor
    · intro it hit
      exact h.1 it (List.mem_of_mem_filter hit)
    · apply noAdj_of_allNotComment
      simp only [allNotComment, List.all_eq_true]
      intro it hit
      have := List.of_mem_filter hit
      simpa using this
  · simpa only [stripCommentsItems, hs, Bool.false_eq_true, if_false] using h

theorem allNotComment_strip (opts : TidyOptions) (items : List BItem)
    (hs : opts.stripComments = true) :
    allNotComment (stripCommentsItems opts items) = true := by
  simp only [stripCommentsItems, hs, if_true, allNotComment, List.all_eq_true]
  intro it hit
  have := List.of_mem_filter hit
  simpa using this

theorem stripComments_of_allNot (opts : TidyOptions) (items : List BItem)
    (h : allNotComment items = true) : stripCommentsItems opts items = items := by
  by_cases hs : opts.stripComments = true
  · simp only [stripCommentsItems, hs, if_true]
    apply List.filter_eq_self.2
    intro it hit
    simp only [allNotComment, List.all_eq_true] at h
    exact h it hit
  · simp [stripCommentsItems, hs]

/-- The field-list transformation performed by the normalizer. -/
def nFields (opts : TidyOptions) (fs : List BField) : List BField :=
  ((dedupFieldsLast fs).filter (fun fl => !(decide (fl.fname ∈ opts.stripFields)))).map
    (fun fl => ⟨fl.fname, normValue opts fl.fval⟩)

theorem normalizeEntry_fst_eq (opts : TidyOptions) (e : BEntry) :
    (normalizeEntry opts e).1 = ⟨e.etype, e.ekey, nFields opts e.fields⟩ := rfl

theorem nFields_idem (opts : TidyOptions) (fs : List BField) :
    nFields opts (nFields opts fs) = nFields opts fs := by
  have h := normalizeEntry_fst_idem opts ⟨[], [], fs⟩
  rw [normalizeEntry_fst_eq, normalizeEntry_fst_eq] at h
  injection h

theorem entry_mem_entriesOf (items : List BItem) (e : BEntry)
    (h : BItem.entry e ∈ items) : e ∈ entriesOf items := by
  induction items with
  | nil => simp at h
  | cons it its ih =>
    rcases List.mem_cons.1 h with h1 | h1
    · subst h1
      simp [entriesOf]
    · cases it with
      | entry e0 => simp only [entriesOf, List.mem_cons]; exact Or.inr (ih h1)
      | comment c => exact ih h1
      | directive d b => exact ih h1

theorem entriesOf_ok (items : List BItem) (h : itemsOk items = true) :
    ∀ e ∈ entriesOf items, entryOk e = true := by
  induction items with
  | nil => simp [entriesOf]
  | cons it its ih =>
    obtain ⟨hit, hits, _⟩ := itemsOk_cons it its h
    cases it with
    | entry e0 =>
      intro e he
      rcases List.mem_cons.1 he with h1 | h1
      · subst h1; exact hit
      · exact ih hits e h1
    | comment c => exact ih hits
    | directive d b => exact ih hits

theorem genKeysAux_mem (es : List BEntry) :
    ∀ seen e', e' ∈ genKeysAux seen es →
      ∃ e ∈ es, e'.etype = e.etype ∧ e'.fields = e.fields := by
  induction es with
  | nil => intro seen e' h; simp [genKeysAux] at h
  | cons e es ih =>
    intro seen e' h
    simp only [genKeysAux, List.mem_cons] at h
    rcases h with h | h
    · exact ⟨e, by simp, by simp [h], by simp [h]⟩
    · obtain ⟨e0, he0, h1, h2⟩ := ih _ e' h
      exact ⟨e0, by simp [he0], h1, h2⟩

theorem allNotComment_eqmap (items items' : List BItem)
    (h : items.map isCommentItem = items'.map isCommentItem) :
    allNotComment items = allNotComment items' := by
  have h1 : ∀ l : List BItem, allNotComment l = (l.map isCommentItem).all (fun b => !b) := by
    intro l
    induction l with
    | nil => rfl
    | cons it its ih => simp [allNotComment, List.all_cons] at ih ⊢; rw [ih]
  rw [h1 items, h1 items', h]

theorem processItems_fst (opts : TidyOptions) (items : List BItem)
    (hm : opts.merge = false) :
    (processItems opts items).1 =
      genKeysItems opts (sortItems opts
        (normalizeItems opts (stripCommentsItems opts items)).1) := by
  simp [processItems, dedupeItems, hm]

theorem entriesOf_sortItems (opts : TidyOptions) (ks : List SortKey)
    (hs : opts.sortSpec = some ks) (items : List BItem) :
    entriesOf (sortItems opts items) = insSort (entryLeB ks) (entriesOf items) := by
  simp only [sortItems, hs]
  apply entriesOf_replaceEntries
  exact ((insSort_perm (entryLeB ks) (entriesOf items)).length_eq).symm

theorem entriesOf_genKeysItems (opts : TidyOptions) (hg : opts.generateKeys = true)
    (items : List BItem) :
    entriesOf (genKeysItems opts items) = genKeysAux [] (entriesOf items) := by
  simp only [genKeysItems, hg, if_true]
  apply entriesOf_replaceEntries
  exact (genKeysAux_length [] (entriesOf items)).symm

theorem sortItems_commentMap (opts : TidyOptions) (items : List BItem) :
    (sortItems opts items).map isCommentItem = items.map isCommentItem := by
  cases hs : opts.sortSpec with
  | none => simp [sortItems, hs]
  | some ks =>
    simp only [sortItems, hs]
    exact replaceEntries_commentMap items _

theorem genKeysItems_commentMap (opts : TidyOptions) (items : List BItem) :
    (genKeysItems opts items).map isCommentItem = items.map isCommentItem := by
  by_cases hg : opts.generateKeys = true
  · simp only [genKeysItems, hg, if_true]
    exact replaceEntries_commentMap items _
  · simp [genKeysItems, hg]

theorem normalizeItems_commentMap (opts : TidyOptions) (items : List BItem) :
    (normalizeItems opts items).1.map isCommentItem = items.map isCommentItem := by
  rw [normalizeItems_fst, List.map_map]
  apply List.map_congr_left
  intro it _
  exact normalizeItem_comment opts it

theorem itemsOk_sortItems (opts : TidyOptions) (items : List BItem)
    (h : itemsOk items = true) : itemsOk (sortItems opts items) = true := by
  cases hs : opts.sortSpec with
  | none => simpa [sortItems, hs] using h
  | some ks =>
    simp only [sortItems, hs]
    apply itemsOk_replaceEntries items _ h
    intro e he
    have := (insSort_perm (entryLeB ks) (entriesOf items)).mem_iff.1 he
    exact entriesOf_ok items h e this

theorem itemsOk_genKeysItems (opts : TidyOptions) (items : List BItem)
    (h : itemsOk items = true) : itemsOk (genKeysItems opts items) = true := by
  by_cases hg : opts.generateKeys = true
  · simp only [genKeysItems, hg, if_true]
    apply itemsOk_replaceEntries items _ h
    exact genKeysAux_entryOk (entriesOf items) [] (entriesOf_ok items h)
  · simpa [genKeysItems, hg] using h

/-- The processed document always satisfies the invariant (merge disabled). -/
theorem processItems_wf (opts : TidyOptions) (items : List BItem)
    (hm : opts.merge = false) (h : itemsOk items = true) :
    itemsOk (processItems opts items).1 = true := by
  rw [processItems_fst opts items hm]
  apply itemsOk_genKeysItems
  apply itemsOk_sortItems
  apply itemsOk_normalizeItems
  exact stripComments_ok opts items h

theorem sortItems_none (opts : TidyOptions) (hs : opts.sortSpec = none)
    (items : List BItem) : sortItems opts items = items := by
  simp only [sortItems, hs]

theorem sortItems_of_pairwise (opts : TidyOptions) (ks : List SortKey)
    (hs : opts.sortSpec = some ks) (items : List BItem)
    (h : (entriesOf items).Pairwise (fun a b => entryLeB ks a b = true)) :
    sortItems opts items = items := by
  simp only [sortItems, hs]
  rw [insSort_of_pairwise _ _ h]
  exact replaceEntries_self items

theorem entriesOf_fields_processed (opts : TidyOptions) (items : List BItem) :
    ∀ e' ∈ entriesOf (genKeysItems opts (sortItems opts
        (normalizeItems opts (stripCommentsItems opts items)).1)),
      ∃ fs₀, e'.fields = nFields opts fs₀ := by
  intro e' he'
  have step1 : ∃ e₁ ∈ entriesOf (sortItems opts
      (normalizeItems opts (stripCommentsItems opts items)).1), e'.fields = e₁.fields := by
    by_cases hg : opts.generateKeys = true
    · rw [entriesOf_genKeysItems opts hg] at he'
      obtain ⟨e₁, he₁, _, hf⟩ := genKeysAux_mem _ [] e' he'
      exact ⟨e₁, he₁, hf⟩
    · rw [genKeysItems, if_neg (by simpa using hg)] at he'
      exact ⟨e', he', rfl⟩
  obtain ⟨e₁, he₁, hf1⟩ := step1
  have step2 : e₁ ∈ entriesOf (normalizeItems opts (stripCommentsItems opts items)).1 := by
    cases hs : opts.sortSpec with
    | none => rw [sortItems, hs] at he₁; exact he₁
    | some ks =>
      rw [entriesOf_sortItems opts ks hs] at he₁
      exact (insSort_perm _ _).mem_iff.1 he₁
  rw [entriesOf_normalizeItems] at step2
  simp only [List.mem_map] at step2
  obtain ⟨e₀, _, heq⟩ := step2
  refine ⟨e₀.fields, ?_⟩
  rw [hf1, ← heq, normalizeEntry_fst_eq]

theorem processItems_fst_idem (opts : TidyOptions) (items : List BItem)
    (hm : opts.merge = false)
    (hg : opts.generateKeys = false ∨ ¬ SortKey.byKey ∈ sortKeysOf opts) :
    (processItems opts (processItems opts items).1).1 = (processItems opts items).1 := by
  rw [processItems_fst opts items hm, processItems_fst opts _ hm]
  -- step 1: stripping is a no-op on the processed document
  have hstrip : stripCommentsItems opts (genKeysItems opts (sortItems opts
      (normalizeItems opts (stripCommentsItems opts items)).1)) =
      genKeysItems opts (sortItems opts
        (normalizeItems opts (stripCommentsItems opts items)).1) := by
    by_cases hs : opts.stripComments = true
    · apply stripComments_of_allNot
      rw [allNotComment_eqmap _ _ (genKeysItems_commentMap opts _)]
      rw [allNotComment_eqmap _ _ (sortItems_commentMap opts _)]
      rw [allNotComment_eqmap _ _ (normalizeItems_commentMap opts _)]
      exact allNotComment_strip opts items hs
    · simp [stripCommentsItems, hs]
  rw [hstrip]
  -- step 2: normalization is a no-op on the processed document
  have hnorm : (normalizeItems opts (genKeysItems opts (sortItems opts
      (normalizeItems opts (stripCommentsItems opts items)).1))).1 =
      genKeysItems opts (sortItems opts
        (normalizeItems opts (stripCommentsItems opts items)).1) := by
    apply normalizeItems_of_fixed
    intro it hit
    cases it with
    | comment c => rfl
    | directive d b => rfl
    | entry e' =>
      have he' := entry_mem_entriesOf _ e' hit
      obtain ⟨fs₀, hfs⟩ := entriesOf_fields_processed opts items e' he'
      show BItem.entry (normalizeEntry opts e').1 = BItem.entry e'
      rw [normalizeEntry_fst_eq, hfs, nFields_idem, ← hfs]
  rw [hnorm]
  -- step 3: sorting is a no-op on the processed document
  have hsortpair : ∀ ks, opts.sortSpec = some ks →
      (entriesOf (genKeysItems opts (sortItems opts
        (normalizeItems opts (stripCommentsItems opts items)).1))).Pairwise
        (fun a b => entryLeB ks a b = true) := by
    intro ks hs
    have hpair1 : (entriesOf (sortItems opts
        (normalizeItems opts (stripCommentsItems opts items)).1)).Pairwise
        (fun a b => entryLeB ks a b = true) := by
      rw [entriesOf_sortItems opts ks hs]
      exact insSort_pairwise _ (entryLeB_total ks) (entryLeB_trans ks) _
    by_cases hgen : opts.generateKeys = true
    · have hnk : ¬ SortKey.byKey ∈ ks := by
        rcases hg with hg | hg
        · rw [hgen] at hg
          exact absurd hg (by simp)
        · rw [sortKeysOf, hs] at hg
          exact hg
      rw [entriesOf_genKeysItems opts hgen]
      apply pairwise_skel_transfer _ ?_ _ _ (genKeysAux_skel [] _).symm hpair1
      intro a a' b b' hta hfa htb hfb hab
      rw [← entryLeB_congr ks hnk a a' b b' hta hfa htb hfb]
      exact hab
    · rw [genKeysItems, if_neg (by simpa using hgen)]
      exact hpair1
  have hsort : sortItems opts (genKeysItems opts (sortItems opts
      (normalizeItems opts (stripCommentsItems opts items)).1)) =
      genKeysItems opts (sortItems opts
        (normalizeItems opts (stripCommentsItems opts items)).1) := by
    cases hs : opts.sortSpec with
    | none => exact sortItems_none opts hs _
    | some ks => exact sortItems_of_pairwise opts ks hs _ (hsortpair ks hs)
  rw [hsort]
  -- step 4: key generation is a no-op on the processed document
  by_cases hgen : opts.generateKeys = true
  · rw [genKeysItems, if_pos hgen]
    rw [entriesOf_genKeysItems opts hgen, genKeysAux_idem]
    rw [← entriesOf_genKeysItems opts hgen]
    exact replaceEntries_self _
  · rw [genKeysItems, if_neg (by simpa using hgen)]

theorem serItem_length_pos (ind : Nat) (it : BItem) (h : itemOk it = true) :
    1 ≤ (serItem ind it).length := by
  cases it with
  | entry e => simp [serItem]
  | directive d b => simp [serItem]
  | comment c =>
    simp only [itemOk, Bool.and_eq_true, List.any_eq_true] at h
    obtain ⟨⟨x, hx, _⟩, _⟩ := h
    cases c with
    | nil => simp at hx
    | cons y ys => simp [serItem]

theorem serItems_length_ge (ind : Nat) (d : List BItem) (h : d.all itemOk = true) :
    d.length ≤ (serItems ind d).length := by
  induction d with
  | nil => simp [serItems]
  | cons it its ih =>
    simp only [List.all_cons, Bool.and_eq_true] at h
    have h1 := serItem_length_pos ind it h.1
    have h2 := ih h.2
    simp only [serItems, List.length_cons, List.length_append]
    omega

theorem parseBib_serItems (ind : Nat) (d : List BItem) (h : itemsOk d = true) :
    parseBib (serItems ind d) = (d, []) := by
  rw [parseBib]
  apply serItems_parse ind _ d h
  have hall : d.all itemOk = true := by
    simp only [itemsOk, Bool.and_eq_true] at h
    exact h.1
  have := serItems_length_ge ind d hall
  omega

theorem tidyChars_fst (opts : TidyOptions) (cs : List Char) :
    (tidyChars opts cs).1 =
      serItems opts.indent (processItems opts (parseBib cs).1).1 := rfl

theorem tidyChars_fst_idem (opts : TidyOptions) (cs : List Char)
    (hm : opts.merge = false)
    (hg : opts.generateKeys = false ∨ ¬ SortKey.byKey ∈ sortKeysOf opts) :
    (tidyChars opts (tidyChars opts cs).1).1 = (tidyChars opts cs).1 := by
  rw [tidyChars_fst, tidyChars_fst]
  have hwf : itemsOk (processItems opts (parseBib cs).1).1 = true :=
    processItems_wf opts _ hm (parseBib_wf cs)
  rw [parseBib_serItems opts.indent _ hwf]
  rw [processItems_fst_idem opts _ hm hg]

/-- The value of the last occurrence of field name `n` (last-write-wins). -/
def lastVal (fs : List BField) (n : List Char) : Option (List Char) :=
  ((fs.filter (fun fl => fl.fname = n)).getLast?).map (fun fl => fl.fval)

theorem getLast?_cons_ne_nil {α : Type} (a : α) (l : List α) (h : ¬ l = []) :
    (a :: l).getLast? = l.getLast? := by
  cases l with
  | nil => exact absurd rfl h
  | cons b bs => simp [List.getLast?_cons_cons]

theorem dedupLast_mem_of_last (fs : List BField) :
    ∀ n v, lastVal fs n = some v → (⟨n, v⟩ : BField) ∈ dedupFieldsLast fs := by
  induction fs with
  | nil => intro n v h; simp [lastVal] at h
  | cons fl fs ih =>
    intro n v h
    by_cases hany : fs.any (fun g => g.fname = fl.fname) = true
    · simp only [dedupFieldsLast, hany, if_true]
      by_cases hn : fl.fname = n
      · obtain ⟨g, hg, hgn⟩ := List.any_eq_true.1 hany
        simp only [decide_eq_true_eq] at hgn
        have hfilne : ¬ fs.filter (fun fl => fl.fname = n) = [] := by
          intro hemp
          have : g ∈ fs.filter (fun fl => fl.fname = n) :=
            List.mem_filter.2 ⟨hg, by simp [hgn, hn]⟩
          rw [hemp] at this
          simp at this
        apply ih n v
        rw [lastVal] at h ⊢
        rw [List.filter_cons, if_pos (by simp [hn])] at h
        rw [getLast?_cons_ne_nil _ _ hfilne] at h
        exact h
      · apply ih n v
        rw [lastVal] at h ⊢
        rw [List.filter_cons, if_neg (by simpa using hn)] at h
        exact h
    · simp only [dedupFieldsLast, hany, Bool.false_eq_true, if_false]
      by_cases hn : fl.fname = n
      · have hfil : fs.filter (fun fl => fl.fname = n) = [] := by
        { rw [List.filter_eq_nil_iff]
          intro g hg
          simp only [decide_eq_true_eq]
          intro hgn
          apply hany
          rw [List.any_eq_true]
          exact ⟨g, hg, by simp [hgn, hn]⟩ }
        rw [lastVal, List.filter_cons, if_pos (by simp [hn]), hfil] at h
        simp only [List.getLast?_singleton, Option.map_some', Option.some_inj] at h
        have : (⟨n, v⟩ : BField) = fl := by
          rw [← h, ← hn]
        rw [this]
        simp
      · rw [lastVal, List.filter_cons, if_neg (by simpa using hn)] at h
        exact List.mem_cons_of_mem fl (ih n v h)

theorem nFields_mem_of_last (opts : TidyOptions) (fs : List BField) (n v : List Char)
    (h : lastVal fs n = some v) (hstrip : ¬ n ∈ opts.stripFields) :
    (⟨n, normValue opts v⟩ : BField) ∈ nFields opts fs := by
  have h1 := dedupLast_mem_of_last fs n v h
  have h2 : (⟨n, v⟩ : BField) ∈ (dedupFieldsLast fs).filter
      (fun fl => !(decide (fl.fname ∈ opts.stripFields))) :=
    List.mem_filter.2 ⟨h1, by simpa using hstrip⟩
  rw [nFields]
  exact List.mem_map.2 ⟨⟨n, v⟩, h2, rfl⟩

theorem entriesOf_stripComments (opts : TidyOptions) (items : List BItem) :
    entriesOf (stripCommentsItems opts items) = entriesOf items := by
  by_cases hs : opts.stripComments = true
  · simp only [stripCommentsItems, hs, if_true]
    induction items with
    | nil => rfl
    | cons it its ih =>
      cases it with
      | entry e =>
        simp only [List.filter_cons,
          show (!(isCommentItem (BItem.entry e))) = true from rfl, if_true, entriesOf, ih]
      | comment c =>
        simp only [List.filter_cons,
          show (!(isCommentItem (BItem.comment c))) = false from rfl,
          Bool.false_eq_true, if_false, entriesOf, ih]
      | directive d b =>
        simp only [List.filter_cons,
          show (!(isCommentItem (BItem.directive d b))) = true from rfl, if_true,
          entriesOf, ih]
  · simp [stripCommentsItems, hs]

theorem genKeysAux_mem_fwd (es : List BEntry) :
    ∀ seen e, e ∈ es → ∃ e' ∈ genKeysAux seen es, e'.etype = e.etype ∧ e'.fields = e.fields := by
  induction es with
  | nil => intro seen e h; simp at h
  | cons e0 es ih =>
    intro seen e h
    rcases List.mem_cons.1 h with h1 | h1
    · subst h1
      exact ⟨⟨e.etype, baseKeyOf e ++ suffixFor (seen.count (baseKeyOf e)), e.fields⟩,
        by simp [genKeysAux], rfl, rfl⟩
    · obtain ⟨e', he', h2⟩ := ih (baseKeyOf e0 :: seen) e h1
      exact ⟨e', by simp [genKeysAux, he'], h2⟩

theorem genKeysAux_key_at (es : List BEntry) :
    ∀ seen i, i < es.length →
      ((genKeysAux seen es).getD i emptyBEntry).ekey =
        baseKeyOf (es.getD i emptyBEntry) ++
          suffixFor (seen.count (baseKeyOf (es.getD i emptyBEntry)) +
            (es.take i).countP (fun e =>
              decide (baseKeyOf e = baseKeyOf (es.getD i emptyBEntry)))) := by
  induction es with
  | nil => intro seen i h; simp at h
  | cons e es ih =>
    intro seen i hi
    cases i with
    | zero => simp [genKeysAux]
    | succ i =>
      have hlen : i < es.length := by
        simp only [List.length_cons] at hi
        omega
      simp only [genKeysAux, List.getD_cons_succ, List.take_succ_cons, List.countP_cons]
      rw [ih (baseKeyOf e :: seen) i hlen]
      congr 1
      congr 1
      rw [List.count_cons]
      simp only [beq_iff_eq, decide_eq_true_eq]
      by_cases hb : baseKeyOf e = baseKeyOf (es.getD i emptyBEntry)
      · simp only [hb, if_true]
        omega
      · simp only [hb, if_false]
        omega

theorem countP_take_mono {α : Type} (p : α → Bool) (l : List α) (i j : Nat) (h : i ≤ j) :
    (l.take i).countP p ≤ (l.take j).countP p := by
  have : l.take i = (l.take j).take i := by
    rw [List.take_take]
    congr 1
    omega
  rw [this]
  have hsub : ((l.take j).take i).Sublist (l.take j) := List.take_sublist _ _
  exact List.Sublist.countP_le p hsub

theorem countP_take_strict {α : Type} [Inhabited α] (p : α → Bool) (l : List α)
    (i j : Nat) (hij : i < j) (hj : j ≤ l.length) (hp : p (l.getD i default) = true) :
    (l.take i).countP p < (l.take j).countP p := by
  have h1 : (l.take (i + 1)).countP p = (l.take i).countP p + 1 := by
    rw [List.take_succ]
    rw [List.countP_append]
    have hi : i < l.length := by omega
    rw [List.getElem?_eq_getElem hi]
    simp only [Option.toList_some, List.countP_cons, List.countP_nil]
    have hgd : l[i] = l.getD i default := by
      rw [List.getD_eq_getElem?_getD, List.getElem?_eq_getElem hi]
      rfl
    rw [hgd, hp]
    simp
  have h2 := countP_take_mono p l (i + 1) j (by omega)
  omega

theorem suffixFor_len_one (m : Nat) (h1 : 1 ≤ m) (h2 : m ≤ 26) :
    suffixFor m = [Char.ofNat (97 + (m - 1) % 26)] := by
  have hm : ¬ m = 0 := by omega
  have hdiv : (m - 1) / 26 = 0 := Nat.div_eq_of_lt (by omega)
  simp [suffixFor, hm, hdiv]

theorem suffixFor_inj_le26 (m n : Nat) (h : m < n) (hn : n ≤ 26) :
    ¬ suffixFor m = suffixFor n := by
  intro heq
  by_cases hm : m = 0
  · subst hm
    rw [suffixFor_len_one n (by omega) hn] at heq
    simp [suffixFor] at heq
  · rw [suffixFor_len_one m (by omega) (by omega),
      suffixFor_len_one n (by omega) hn] at heq
    simp only [List.cons.injEq] at heq
    have h1 := congrArg Char.toNat heq.1
    rw [charToNat_ofNat _ (by omega), charToNat_ofNat _ (by omega)] at h1
    have hmlt : m - 1 < 26 := by omega
    have hnlt : n - 1 < 26 := by omega
    rw [Nat.mod_eq_of_lt hmlt, Nat.mod_eq_of_lt hnlt] at h1
    omega

/-- Two index groups share no entry. -/
def DisjointG (g h : List Nat) : Prop := ∀ i, i ∈ g → ¬ i ∈ h

theorem disjointG_symm (g h : List Nat) (hd : DisjointG g h) : DisjointG h g := by
  intro i hig hih
  exact hd i hih hig

theorem addBucket_pairwise (groups : List (List Nat)) (b : List Nat)
    (h : groups.Pairwise DisjointG) : (addBucket groups b).Pairwise DisjointG := by
  rw [addBucket, List.pairwise_cons]
  constructor
  · intro u hu i hinew hiu
    have hu2 := List.of_mem_filter hu
    have humem := List.mem_of_mem_filter hu
    simp only [Bool.not_eq_true'] at hu2
    have hinotb : ¬ i ∈ b := by
      intro hib
      have : groupTouches u b = true := by
        rw [groupTouches, List.any_eq_true]
        exact ⟨i, hiu, by simpa using hib⟩
      rw [this] at hu2
      simp at hu2
    rw [List.mem_dedup, List.mem_append] at hinew
    rcases hinew with hinew | hinew
    · rw [List.mem_flatten] at hinew
      obtain ⟨g, hg, hig⟩ := hinew
      have hgmem := List.mem_of_mem_filter hg
      have hgt := List.of_mem_filter hg
      have hgu : ¬ g = u := by
        intro he
        subst he
        rw [hgt] at hu2
        simp at hu2
      have := List.Pairwise.forall (fun x y => disjointG_symm x y) h
      by_cases hne : g = u
      · exact absurd hne hgu
      · exact this hgmem humem hne i hig hiu
    · exact hinotb hinew
  · exact List.Pairwise.sublist (List.filter_sublist _) h

theorem mergeGroups_pairwise (bs : List (List Nat)) :
    ∀ acc, acc.Pairwise DisjointG → (mergeGroups acc bs).Pairwise DisjointG := by
  induction bs with
  | nil => intro acc h; exact h
  | cons b bs ih =>
    intro acc h
    exact ih _ (addBucket_pairwise acc b h)

theorem detectDuplicates_pairwise (strats : List DupStrategy) (es : List BEntry) :
    (detectDuplicates strats es).Pairwise DisjointG := by
  rw [detectDuplicates]
  exact mergeGroups_pairwise _ [] List.Pairwise.nil

deriving instance DecidableEq for Except

/-- Embedded from `src/rollup.config.js` (`docsResolve`): the CLI flag name is
derived from an option key by the global regex replace
`key.replace(/[A-Z]/g, c => "-" + c.toLowerCase())`, scanning left to right. -/
def cliNameOfKey : List Char → List Char
  | [] => []
  | c :: cs => if upperA c then '-' :: lowerChar c :: cliNameOfKey cs else c :: cliNameOfKey cs

/-- The spec-side description of the derivation: each uppercase ASCII letter is
replaced by a hyphen followed by its lowercase form, independently per
character. -/
def cliNameSpec (key : List Char) : List Char :=
  (key.map (fun c => if upperA c then ['-', lowerChar c] else [c])).flatten

/-- Input with one malformed entry (unterminated brace) followed by a good one. -/
def badIn : String := "@article\x7ba, title=\x7bfoo
@article\x7bb, author=\x7bX\x7d\x7d"

/-- The two-entry input of `test/duplicate-citations.spec.js`. -/
def dupIn : String := "
@article\x7ba,
    author=\x7bSmith, James\x7d,
    title=\"  something blah BLAH.\"
\x7d
@article\x7bb,
    author=\x7bSmith, JA\x7d,
    title=\x7bSomething blah blah\x7d
\x7d"

/-- Options enabling only the `citation` duplicate strategy. -/
def dupOpts : TidyOptions := ⟨none, [DupStrategy.dcitation], false, false, [], false, true, 2⟩

/-- Three entries where merging a DOI-duplicate pair copies the author field
into the kept entry, creating a citation-duplicate only visible on a second run. -/
def cxIn : String := "@article\x7bk1, doi=\x7bx\x7d, title=\x7bSome Title\x7d\x7d@article\x7bk2, doi=\x7bx\x7d, author=\x7bSmith, A\x7d\x7d@article\x7bk3, author=\x7bSmith, A\x7d, title=\x7bSome Title\x7d\x7d"

/-- Options with DOI and citation strategies and merging enabled. -/
def cxOpts : TidyOptions :=
  ⟨none, [DupStrategy.ddoi, DupStrategy.dcitation], true, false, [], false, true, 2⟩

/-- A typical input exercising sorting, stripping and comments. -/
def exIdemIn : String := "leading text @article\x7bzz, year=\x7b2001\x7d, note=\x7ba \x7bnest\x7d  b \x7d\x7d mid @string\x7bfoo=1\x7d @article\x7baa, month=\x7bjan\x7d\x7d trailing"

/-- Options with sorting, one strip rule and whitespace collapsing. -/
def exIdemOpts : TidyOptions :=
  ⟨some [SortKey.byField (("year").data), SortKey.byKey], [DupStrategy.dkey], false, false,
    [("month").data], false, true, 4⟩

/-- An entry with a duplicate field name (last-write-wins drops the first). -/
def c5In : String := "@article\x7bk,title=\x7bone\x7d,title=\x7btwo\x7d\x7d"

/-- A one-entry input whose single field survives the pipeline. -/
def c5wIn : String := "@article\x7bk,title=\x7bx\x7d\x7d"

/-- The parsed entry of `c5wIn`. -/
def c5wEntry : BEntry := ⟨("article").data, ['k'], [⟨("title").data, ['x']⟩]⟩

/-- The brace-depth test input. -/
def ieeeIn : String := "@article\x7bk, journal=\x7b\x7bIEEE\x7d Transactions\x7d\x7d"

/-- The item parsed from `ieeeIn`. -/
def ieeeItem : BItem :=
  .entry ⟨("article").data, ['k'], [⟨("journal").data, ("\x7bIEEE\x7d Transactions").data⟩]⟩

/-- An entry lacking sort field `a` but carrying sort field `b`. -/
def cex4e1 : BEntry := ⟨("article").data, ("e1").data, [⟨['b'], ['1']⟩]⟩

/-- An entry carrying both sort fields. -/
def cex4e2 : BEntry := ⟨("article").data, ("e2").data, [⟨['a'], ['2']⟩, ⟨['b'], ['2']⟩]⟩

/-- A two-key sort specification `[b, a]`. -/
def cex4Opts : TidyOptions :=
  ⟨some [SortKey.byField ['b'], SortKey.byField ['a']], [], false, false, [], false, true, 2⟩

/-- The document built from the two entries above. -/
def cex4Items : List BItem := [.entry cex4e1, .entry cex4e2]

instance : Inhabited BEntry := ⟨emptyBEntry⟩

/-- The entries used in the key-collision witness: identical author fields give
identical regenerated base keys. -/
def e7a : BEntry := ⟨("article").data, ['x'], [⟨("author").data, ("Smith, Ann").data⟩]⟩

/-- Second entry with the same author (hence the same base key). -/
def e7b : BEntry := ⟨("article").data, ['y'], [⟨("author").data, ("Smith, Ann").data⟩]⟩

/-- The two-entry colliding sequence. -/
def es7 : List BEntry := [e7a, e7b]

/-- A single-field sort specification over field `a`. -/
def w4Opts : TidyOptions :=
  ⟨some [SortKey.byField ['a']], [], false, false, [], false, true, 2⟩

/-- C1: running the pipeline a second time on its own output is a fixed point,
provided duplicate merging is disabled and regenerated keys are not used as a
sort key; without those provisos the claim fails (`claim1_counterexample`). -/
theorem claim1_pipeline_idempotent (s : String) (opts : TidyOptions)
    (hm : opts.merge = false)
    (hg : opts.generateKeys = false ∨ ¬ SortKey.byKey ∈ sortKeysOf opts) :
    tidyStr (tidyStr s opts) opts = tidyStr s opts :=
  congrArg String.mk (tidyChars_fst_idem opts s.data hm hg)

/-- C1 witness: idempotence at a concrete input with sorting, key-based
duplicate warnings, a strip rule and whitespace collapsing enabled. -/
theorem claim1_pipeline_idempotent_witness :
    tidyStr (tidyStr exIdemIn exIdemOpts) exIdemOpts = tidyStr exIdemIn exIdemOpts :=
  claim1_pipeline_idempotent exIdemIn exIdemOpts rfl (Or.inl rfl)

set_option maxRecDepth 1000000 in
/-- C1 counterexample: with merging enabled, merging a DOI-duplicate pair
copies a field that creates a fresh citation duplicate, so the second run
differs from the first. -/
theorem claim1_counterexample :
    ¬ tidyStr (tidyStr cxIn cxOpts) cxOpts = tidyStr cxIn cxOpts := by decide

set_option maxRecDepth 1000000 in
/-- C2: a non-text (absent) input is the only fatal error, with no partial
output; every text input yields a result; the concrete input with an
unterminated brace in its first entry yields a recovery warning recording the
malformed item while the output retains the other entry in full. -/
theorem claim2_error_boundary :
    (∀ opts : TidyOptions, tidy none opts = .error TidyError.notText) ∧
    (∀ (s : String) (opts : TidyOptions), ∃ r : TidyResult, tidy (some s) opts = .ok r) ∧
    tidy (some badIn) defaultOptions =
      .ok ⟨("@article\x7bb,\n  author = \x7bX\x7d,\n\x7d" : String),
        [BWarning.parseRecovered (("article\x7ba, title=\x7bfoo\n").data)]⟩ :=
  ⟨fun _ => rfl, fun _ _ => ⟨_, rfl⟩, by decide⟩

set_option maxRecDepth 1000000 in
/-- C3: on the two-entry input of `test/duplicate-citations.spec.js` with only
the `citation` strategy enabled, exactly one duplicate group is reported, and
it contains both entries (indices 0 and 1). -/
theorem claim3_duplicate_citation_count :
    (tidyChars dupOpts dupIn.data).2 = [BWarning.duplicateEntries [0, 1]] ∧
    (tidyChars dupOpts dupIn.data).2.length = 1 ∧
    tidy (some dupIn) dupOpts =
      .ok ⟨tidyStr dupIn dupOpts, [BWarning.duplicateEntries [0, 1]]⟩ :=
  ⟨by decide, by decide, by decide⟩

/-- C4: under a single-field sort specification, every entry lacking the sort
field is placed after all entries that have it, and the missing-field entries
keep their original relative order (they appear exactly as the order-preserving
filter of the input); for multi-key specifications the claim fails
(`claim4_counterexample`). -/
theorem claim4_missing_field_last (opts : TidyOptions) (fn : List Char)
    (items : List BItem) (hs : opts.sortSpec = some [SortKey.byField fn]) :
    ∃ pre, entriesOf (sortItems opts items) =
        pre ++ (entriesOf items).filter (lacksField fn) ∧
      ∀ e ∈ pre, lacksField fn e = false := by
  rw [entriesOf_sortItems opts [SortKey.byField fn] hs]
  exact insSort_single_key fn (entriesOf items)

/-- C4 witness: the missing-last decomposition at a concrete two-entry
document sorted by field `a`. -/
theorem claim4_missing_field_last_witness :
    ∃ pre, entriesOf (sortItems w4Opts cex4Items) =
        pre ++ (entriesOf cex4Items).filter (lacksField ['a']) ∧
      ∀ e ∈ pre, lacksField ['a'] e = false :=
  claim4_missing_field_last w4Opts ['a'] cex4Items rfl

set_option maxRecDepth 1000000 in
/-- C4 counterexample: under the two-key specification `[b, a]`, the entry
lacking field `a` sorts before an entry that has it, because the first key
already decides the comparison. -/
theorem claim4_counterexample :
    entriesOf (sortItems cex4Opts cex4Items) = [cex4e1, cex4e2] ∧
    lacksField ['a'] cex4e1 = true ∧ lacksField ['a'] cex4e2 = false :=
  ⟨by decide, by decide, by decide⟩

/-- C5: with merging disabled, the last occurrence of any field name not
targeted by a stripping rule survives into the serialized output with its
normalized value; earlier same-named occurrences are dropped by last-write-wins
(`claim5_counterexample`), which corrects the unrestricted claim. -/
theorem claim5_field_preserved (s : String) (opts : TidyOptions) (n v : List Char)
    (e : BEntry) (hm : opts.merge = false)
    (he : e ∈ entriesOf (parseBib s.data).1)
    (hv : lastVal e.fields n = some v)
    (hstrip : ¬ n ∈ opts.stripFields) :
    ∃ e' ∈ entriesOf (parseBib (tidyStr s opts).data).1,
      (⟨n, normValue opts v⟩ : BField) ∈ e'.fields := by
  have hwf : itemsOk (processItems opts (parseBib s.data).1).1 = true :=
    processItems_wf opts _ hm (parseBib_wf s.data)
  have hparse1 : (parseBib (tidyStr s opts).data).1 = (processItems opts (parseBib s.data).1).1 := by
    show (parseBib (tidyChars opts s.data).1).1 = _
    rw [tidyChars_fst, parseBib_serItems opts.indent _ hwf]
  rw [hparse1, processItems_fst opts _ hm]
  have hfld : (⟨n, normValue opts v⟩ : BField) ∈ ((normalizeEntry opts e).1).fields := by
    rw [normalizeEntry_fst_eq]
    exact nFields_mem_of_last opts e.fields n v hv hstrip
  have he1 : (normalizeEntry opts e).1 ∈
      entriesOf (normalizeItems opts (stripCommentsItems opts (parseBib s.data).1)).1 := by
    rw [entriesOf_normalizeItems]
    apply List.mem_map_of_mem
    rw [entriesOf_stripComments]
    exact he
  have he2 : (normalizeEntry opts e).1 ∈ entriesOf (sortItems opts
      (normalizeItems opts (stripCommentsItems opts (parseBib s.data).1)).1) := by
    cases hsort : opts.sortSpec with
    | none => rw [sortItems_none opts hsort]; exact he1
    | some ks =>
      rw [entriesOf_sortItems opts ks hsort]
      exact (insSort_perm (entryLeB ks) _).mem_iff.2 he1
  by_cases hg : opts.generateKeys = true
  · rw [entriesOf_genKeysItems opts hg]
    obtain ⟨e', he', _, hf⟩ := genKeysAux_mem_fwd _ [] _ he2
    exact ⟨e', he', by rw [hf]; exact hfld⟩
  · have hng : genKeysItems opts (sortItems opts
            (normalizeItems opts (stripCommentsItems opts (parseBib s.data).1)).1) =
            sortItems opts (normalizeItems opts (stripCommentsItems opts (parseBib s.data).1)).1 := by
          simp [genKeysItems, hg]
    rw [hng]
    exact ⟨_, he2, hfld⟩

/-- C5 witness: the single field of a one-entry document survives the default
pipeline with its (collapsed) value. -/
theorem claim5_field_preserved_witness :
    ∃ e' ∈ entriesOf (parseBib (tidyStr c5wIn defaultOptions).data).1,
      (⟨("title").data, normValue defaultOptions ['x']⟩ : BField) ∈ e'.fields :=
  claim5_field_preserved c5wIn defaultOptions (("title").data) ['x'] c5wEntry rfl
    (by decide) (by decide) (by decide)

set_option maxRecDepth 1000000 in
/-- C5 counterexample: with merging disabled and no stripping configured, the
first of two same-named fields (`title = one`) is present in the parsed input
but its value appears in no entry of the re-parsed output. -/
theorem claim5_counterexample :
    defaultOptions.merge = false ∧ defaultOptions.stripFields = [] ∧
    (⟨("title").data, ("one").data⟩ : BField) ∈
      ((entriesOf (parseBib c5In.data).1).getD 0 emptyBEntry).fields ∧
    ((entriesOf (parseBib (tidyStr c5In defaultOptions).data).1).all
      (fun e => !(e.fields.any (fun fl => decide (fl.fval = ("one").data))))) = true :=
  ⟨rfl, rfl, by decide, by decide⟩

set_option maxRecDepth 1000000 in
/-- C6: a value with nested braces parses without error into a single field of
a single entry, keeping the inner braces in the value; serializing the parsed
item renders the value unchanged, and re-parsing the serialization recovers
the same item (round-trip). -/
theorem claim6_brace_depth :
    parseBib ieeeIn.data = ([ieeeItem], []) ∧
    ieeeItem = BItem.entry ⟨("article").data, ['k'],
      [⟨("journal").data, ("\x7bIEEE\x7d Transactions").data⟩]⟩ ∧
    String.mk (serItems 2 [ieeeItem]) =
      ("@article\x7bk,\n  journal = \x7b\x7bIEEE\x7d Transactions\x7d,\n\x7d" : String) ∧
    parseBib (serItems 2 [ieeeItem]) = ([ieeeItem], []) :=
  ⟨by decide, by decide, by decide, by decide⟩

/-- C7: key regeneration resolves collisions deterministically by position:
the i-th entry's key is its base key plus the suffix determined by how many
earlier entries share that base key (empty, then `a`, `b`, ...), and two
colliding entries always receive distinct keys (given at most 26 sharers, the
range of single-letter suffixes). -/
theorem claim7_key_collision (es : List BEntry) (i j : Nat)
    (hij : i < j) (hj : j < es.length)
    (hbase : baseKeyOf (es.getD i emptyBEntry) = baseKeyOf (es.getD j emptyBEntry))
    (hcnt : (es.take j).countP
      (fun e => decide (baseKeyOf e = baseKeyOf (es.getD j emptyBEntry))) ≤ 26) :
    ((genKeysAux [] es).getD i emptyBEntry).ekey =
      baseKeyOf (es.getD i emptyBEntry) ++
        suffixFor ((es.take i).countP
          (fun e => decide (baseKeyOf e = baseKeyOf (es.getD i emptyBEntry)))) ∧
    ((genKeysAux [] es).getD j emptyBEntry).ekey =
      baseKeyOf (es.getD j emptyBEntry) ++
        suffixFor ((es.take j).countP
          (fun e => decide (baseKeyOf e = baseKeyOf (es.getD j emptyBEntry)))) ∧
    ¬ ((genKeysAux [] es).getD i emptyBEntry).ekey =
      ((genKeysAux [] es).getD j emptyBEntry).ekey := by
  have hi : i < es.length := by omega
  have hki := genKeysAux_key_at es [] i hi
  have hkj := genKeysAux_key_at es [] j hj
  simp only [List.count_nil, Nat.zero_add] at hki hkj
  refine ⟨hki, hkj, ?_⟩
  intro heq
  rw [hki, hkj, ← hbase] at heq
  have hcancel := List.append_cancel_left heq
  rw [← hbase] at hcnt
  have hp : (fun e => decide (baseKeyOf e = baseKeyOf (es.getD i emptyBEntry)))
      (es.getD i default) = true := by
    show decide (baseKeyOf (es.getD i default) = baseKeyOf (es.getD i emptyBEntry)) = true
    exact decide_eq_true rfl
  have hlt := countP_take_strict
    (fun e => decide (baseKeyOf e = baseKeyOf (es.getD i emptyBEntry))) es i j hij
    (by omega) hp
  exact suffixFor_inj_le26 _ _ hlt hcnt hcancel

/-- C7 witness: two entries with identical author fields collide; the first
keeps the bare base key, the second gets suffix `a`, and the keys differ. -/
theorem claim7_key_collision_witness :
    ((genKeysAux [] es7).getD 0 emptyBEntry).ekey =
      baseKeyOf (es7.getD 0 emptyBEntry) ++
        suffixFor ((es7.take 0).countP
          (fun e => decide (baseKeyOf e = baseKeyOf (es7.getD 0 emptyBEntry)))) ∧
    ((genKeysAux [] es7).getD 1 emptyBEntry).ekey =
      baseKeyOf (es7.getD 1 emptyBEntry) ++
        suffixFor ((es7.take 1).countP
          (fun e => decide (baseKeyOf e = baseKeyOf (es7.getD 1 emptyBEntry)))) ∧
    ¬ ((genKeysAux [] es7).getD 0 emptyBEntry).ekey =
      ((genKeysAux [] es7).getD 1 emptyBEntry).ekey :=
  claim7_key_collision es7 0 1 (by decide) (by decide) (by decide) (by decide)

/-- C8: the duplicate groups returned by the detector are pairwise disjoint:
no entry index occurs in more than one reported group, for every entry
sequence and every set of enabled strategies. -/
theorem claim8_groups_disjoint (strats : List DupStrategy) (es : List BEntry) :
    (detectDuplicates strats es).Pairwise DisjointG :=
  detectDuplicates_pairwise strats es

/-- C9: with merging disabled, duplicate detection is read-only: the item list
after the dedupe stage is identical to the list before it — no entry field,
key, or position changes; only warnings are emitted. -/
theorem claim9_detector_readonly (opts : TidyOptions) (items : List BItem)
    (hm : opts.merge = false) :
    (dedupeItems opts items).1 = items := by
  simp [dedupeItems, hm]

/-- C9 witness: read-only detection on a concrete one-entry document. -/
theorem claim9_detector_readonly_witness :
    (dedupeItems defaultOptions [BItem.entry c5wEntry]).1 = [BItem.entry c5wEntry] :=
  claim9_detector_readonly defaultOptions [BItem.entry c5wEntry] rfl

/-- C10: the CLI flag name derived in `docsResolve` replaces each uppercase
ASCII letter with a hyphen followed by its lowercase form (agreeing with the
independent per-character description), leaves keys without uppercase letters
unchanged, and maps `generateKeys` to `generate-keys`. -/
theorem claim10_cli_flag_name :
    (∀ key : List Char, cliNameOfKey key = cliNameSpec key) ∧
    (∀ key : List Char, cliNameOfKey (key.filter (fun c => !(upperA c))) =
      key.filter (fun c => !(upperA c))) ∧
    cliNameOfKey (("generateKeys").data) = ("generate-keys").data := by
  have hspec : ∀ key : List Char, cliNameOfKey key = cliNameSpec key := by
    intro key
    induction key with
    | nil => rfl
    | cons c cs ih =>
      by_cases h : upperA c = true
      · simp [cliNameOfKey, cliNameSpec, h, ih]
      · simp [cliNameOfKey, cliNameSpec, h, ih]
  refine ⟨hspec, ?_, by decide⟩
  intro key
  induction key with
  | nil => rfl
  | cons c cs ih =>
    by_cases h : upperA c = true
    · simp [List.filter_cons, h, ih]
    · simp [List.filter_cons, h, cliNameOfKey, ih]
